import Mathlib

/-!
# antibody: the `project` package (git.go)

A shallow embedding of `project/git.go`: the folder codec (`FromURL`, `ToURL`),
the spec-line parser (`NewGit`), rehydration (`NewClonedGit`), `Path`, and the
two stateful operations `Download` and `Update` over an explicit world.

Go strings are modelled as lists of characters (`Str`).  All patterns the code
searches for are ASCII, so on valid UTF-8 the byte-wise Go functions and the
character-wise functions below agree.
-/

namespace Antibody

/-- Go `string`, as the list of its characters. -/
abbrev Str := List Char

/-! ## Go standard library: `strings` -/

/-- Go `strings.HasPrefix(s, pre)`. -/
def HasPrefix (s pre : Str) : Bool := pre.isPrefixOf s

/-- The scanning loop of `strings.Replace(s, old, new, -1)` for a non-empty `old`:
matches are found left to right and do not overlap.  The counter is the number of
characters of the current match that are still to be skipped. -/
def replaceLoop (old new : Str) : Nat → Str → Str
  | _, [] => []
  | skip + 1, _ :: s => replaceLoop old new skip s
  | 0, c :: s =>
    if old.isPrefixOf (c :: s) then new ++ replaceLoop old new (old.length - 1) s
    else c :: replaceLoop old new 0 s

/-- Go `strings.Replace(s, old, new, -1)` (also `strings.ReplaceAll`).  For an empty
`old` Go inserts `new` before every character and at the end. -/
def Replace (s old new : Str) : Str :=
  if old = [] then new ++ s.flatMap (fun c => c :: new)
  else replaceLoop old new 0 s

/-- Go `strings.ReplaceAll(s, old, new)`. -/
def ReplaceAll (s old new : Str) : Str := Replace s old new

/-! ## The folder codec -/

/-- The table `replaces` of git.go: `(a, b)` pairs, in source order. -/
def replaces : List (Str × Str) :=
  [(":".toList, "-COLON-".toList),
   ("/".toList, "-SLASH-".toList),
   ("@".toList, "-AT-".toList)]

/-- `FromURL` of git.go: for each table entry in order, replace every `a` by `b`. -/
def FromURL (url : Str) : Str :=
  replaces.foldl (fun result replace => Replace result replace.1 replace.2) url

/-- `ToURL` of git.go: for each table entry in the same order, replace every `b` by `a`. -/
def ToURL (folder : Str) : Str :=
  replaces.foldl (fun result replace => Replace result replace.2 replace.1) folder

/-! ## Go standard library: `strings.Split`, `strings.Join`, `path/filepath` (Unix) -/

/-- The scanning loop of `strings.Split(s, sep)` for a non-empty `sep`: the pieces
between the non-overlapping matches of `sep`, found left to right. -/
def splitLoop (sep : Str) : Nat → Str → List Str
  | _, [] => [[]]
  | skip + 1, _ :: s => splitLoop sep skip s
  | 0, c :: s =>
    if sep.isPrefixOf (c :: s) then [] :: splitLoop sep (sep.length - 1) s
    else
      match splitLoop sep 0 s with
      | [] => [[c]]
      | piece :: pieces => (c :: piece) :: pieces

/-- Go `strings.Split(s, sep)`.  For an empty `sep` Go splits after every character. -/
def Split (s sep : Str) : List Str :=
  if sep = [] then s.map (fun c => [c]) else splitLoop sep 0 s

/-- Go `strings.Join(elems, sep)`. -/
def stringsJoin (sep : Str) : List Str → Str
  | [] => []
  | [e] => e
  | e :: es => e ++ sep ++ stringsJoin sep es

/-- One path element as processed by the loop of `filepath.Clean`.  `out` holds the
elements written so far.  Empty and `.` elements are dropped; `..` removes the last
written element when there is one that is not itself `..`, is dropped at the root of
a rooted path, and is written otherwise; any other element is written. -/
def cleanStep (rooted : Bool) (out : List Str) (elem : Str) : List Str :=
  if elem = [] ∨ elem = ".".toList then out
  else if elem = "..".toList then
    match out.getLast? with
    | some top =>
      if top ≠ "..".toList then out.dropLast
      else if rooted then out else out ++ [elem]
    | none => if rooted then out else out ++ [elem]
  else out ++ [elem]

/-- A path is rooted when it starts with the separator. -/
def isRooted (path : Str) : Bool := path.head? = some '/'

/-- The result of `filepath.Clean` from the elements written: they are separated by
`/`, after the leading `/` of a rooted path; a relative path without elements is `.`. -/
def writeOut (rooted : Bool) (out : List Str) : Str :=
  if rooted then '/' :: stringsJoin "/".toList out
  else if out = [] then ".".toList
  else stringsJoin "/".toList out

/-- The elements `filepath.Clean` has written when it reaches the end of the path. -/
def cleanElems (path : Str) : List Str :=
  (Split path "/".toList).foldl (cleanStep (isRooted path)) []

/-- Go `filepath.Clean(path)` on Unix, element by element. -/
def Clean (path : Str) : Str :=
  if path = [] then ".".toList
  else writeOut (isRooted path) (cleanElems path)

/-- Go `filepath.Join(elem...)` on Unix: the elements from the first non-empty one on,
joined by `/` and cleaned; the empty string when every element is empty. -/
def Join (elem : List Str) : Str :=
  match elem.dropWhile (fun e => e = []) with
  | [] => []
  | e :: es => Clean (stringsJoin "/".toList (e :: es))

/-! ## Projects -/

/-- The struct `gitProject` of git.go. -/
structure gitProject where
  URL : Str
  Version : Str
  folder : Str
  inner : Str
  deriving DecidableEq, Repr

/-- The constant `branchMarker`. -/
def branchMarker : Str := "branch:".toList

/-- The constant `pathMarker`. -/
def pathMarker : Str := "path:".toList

/-- The body of the `for _, part := range parts` loop of `NewGit`, on the pair
`(version, inner)`. -/
def scanPart (acc : Str × Str) (part : Str) : Str × Str :=
  let version := if HasPrefix part branchMarker then ReplaceAll part branchMarker [] else acc.1
  let inner := if HasPrefix part pathMarker then ReplaceAll part pathMarker [] else acc.2
  (version, inner)

/-- The `switch` of `NewGit`: every case falls through to `url = repo`. -/
def isFullURL (repo : Str) : Bool :=
  HasPrefix repo "http://".toList || HasPrefix repo "https://".toList ||
  HasPrefix repo "git://".toList || HasPrefix repo "ssh://".toList ||
  HasPrefix repo "git@gitlab.com:".toList || HasPrefix repo "git@github.com:".toList

/-- The variable `url` of `NewGit` after the `switch`: `repo` itself when a case
matched, the GitHub expansion it was initialised with otherwise. -/
def repoURL (repo : Str) : Str :=
  if isFullURL repo then repo else "https://github.com/".toList ++ repo

/-- `NewGit` of git.go.  The index expression `parts[0]` panics on an empty slice,
which is the `none` result. -/
def NewGit (cwd line : Str) : Option gitProject :=
  let parts := Split line " ".toList
  let scanned := parts.foldl scanPart ([], [])
  match parts.head? with
  | none => none
  | some repo =>
    let url := repoURL repo
    let folder := Join [cwd, FromURL url]
    some { Version := scanned.1, URL := url, folder := folder, inner := scanned.2 }

/-- `gitProject.Path` of git.go. -/
def gitProject.Path (g : gitProject) : Str := Join [g.folder, g.inner]

/-! ## The external world: file system and the `git` binary -/

/-- An `exec.Cmd` for the `git` binary: its arguments and its working directory
(`cmd.Dir`, empty for the current directory). -/
structure Cmd where
  args : List Str
  dir : Str
  deriving DecidableEq, Repr

/-- What a finished command reports: its output and its error (`none` for `nil`). -/
structure Outcome where
  output : Str
  err : Option Str
  deriving DecidableEq, Repr

/-- A non-nil error of `os.Stat`: the path does not exist (the errors for which
`os.IsNotExist` holds), or any other error (`ENOTDIR`, `EACCES`, ...) with its message. -/
inductive StatError where
  | notExist
  | other (msg : Str)
  deriving DecidableEq, Repr

/-- Go `os.IsNotExist(err)` on the error of `os.Stat`; `none` is the nil error. -/
def IsNotExist (err : Option StatError) : Bool :=
  match err with
  | some StatError.notExist => true
  | _ => false

/-- The file system as the code observes it: the error `os.Stat(p)` returns for each
path `p`, `none` for nil. -/
abbrev FileSys := Str → Option StatError

/-- The behaviour of the external `git` binary: from a command and a file system to
an outcome and the file system it leaves. -/
abbrev Git := Cmd → FileSys → Outcome × FileSys

/-- The world a project operates in: the file system and the commands started so far,
oldest first. -/
structure World where
  fs : FileSys
  log : List Cmd

/-- The test of `Download`: the value of `os.IsNotExist(err)` for
`_, err := os.Stat(p)`. -/
def World.notExist (w : World) (p : Str) : Bool := IsNotExist (w.fs p)

/-- Running a command (`cmd.Output`, `cmd.CombinedOutput`).  A command whose working
directory does not exist cannot start: the call fails and the file system is unchanged. -/
def run (git : Git) (cmd : Cmd) (w : World) : Outcome × World :=
  if cmd.dir ≠ [] ∧ w.notExist cmd.dir = true then
    ({ output := [], err := some "chdir: no such file or directory".toList },
     { w with log := w.log ++ [cmd] })
  else
    let r := git cmd w.fs
    (r.1, { fs := r.2, log := w.log ++ [cmd] })

/-- The function `commit` of git.go: `git rev-parse --short HEAD` in `folder`. -/
def commit (git : Git) (folder : Str) (w : World) : (Str × Option Str) × World :=
  let r := run git { args := ["rev-parse".toList, "--short".toList, "HEAD".toList], dir := folder } w
  ((ReplaceAll r.1.output "\n".toList [], r.1.err), r.2)

/-- The function `branch` of git.go: `git rev-parse --abbrev-ref HEAD` in `folder`. -/
def branch (git : Git) (folder : Str) (w : World) : (Str × Option Str) × World :=
  let r := run git { args := ["rev-parse".toList, "--abbrev-ref".toList, "HEAD".toList], dir := folder } w
  ((ReplaceAll r.1.output "\n".toList [], r.1.err), r.2)

/-- `NewClonedGit` of git.go. -/
def NewClonedGit (git : Git) (w : World) (home folderName : Str) : gitProject × World :=
  let folderPath := Join [home, folderName]
  let r := branch git folderPath w
  let version := match r.1.2 with
    | some _ => []
    | none => r.1.1
  let url := ToURL folderName
  ({ folder := folderPath, Version := version, URL := url, inner := [] }, r.2)

/-- The argument list of the clone command built in `Download`. -/
def cloneArgs (g : gitProject) : List Str :=
  let args := ["clone".toList, "--recursive".toList, "--depth".toList, "1".toList]
  let args := if g.Version ≠ [] then args ++ ["-b".toList, g.Version] else args
  args ++ [g.URL, g.folder]

/-- `gitProject.Download` of git.go, for one caller at a time (the per-folder mutex is
taken and released around the body and has no sequential effect). -/
def gitProject.Download (git : Git) (g : gitProject) (w : World) : Option Str × World :=
  if w.notExist g.folder = true then
    let r := run git { args := cloneArgs g, dir := [] } w
    match r.1.err with
    | some e => (some e, r.2)
    | none => (none, r.2)
  else (none, w)

/-- The argument list of the pull command built in `Update`. -/
def pullArgs (g : gitProject) : List Str :=
  let args := ["pull".toList, "--recurse-submodules".toList, "origin".toList]
  if g.Version ≠ [] then args ++ [g.Version] else args

/-- `gitProject.Update` of git.go. -/
def gitProject.Update (git : Git) (g : gitProject) (w : World) : Option Str × World :=
  let c := commit git g.folder w
  match c.1.2 with
  | some e => (some e, c.2)
  | none =>
    let r := run git { args := pullArgs g, dir := g.folder } c.2
    match r.1.err with
    | some e => (some e, r.2)
    | none =>
      let c2 := commit git g.folder r.2
      match c2.1.2 with
      | some e => (some e, c2.2)
      | none => (none, c2.2)


/-! ## The codec, character by character -/

/-- The escape of one character when `:`, `/`, `@` are escaped according to the three
flags. -/
def escChar (c s a : Bool) (ch : Char) : Str :=
  if ch = ':' then (if c then "-COLON-".toList else [ch])
  else if ch = '/' then (if s then "-SLASH-".toList else [ch])
  else if ch = '@' then (if a then "-AT-".toList else [ch])
  else [ch]

/-- A string with the characters selected by the flags escaped. -/
def escape (c s a : Bool) (u : Str) : Str := u.flatMap (escChar c s a)

/-- The string contains none of the words `COLON`, `SLASH`, `AT`. -/
def NoMarkerWord (u : Str) : Prop :=
  ¬ "COLON".toList <:+: u ∧ ¬ "SLASH".toList <:+: u ∧ ¬ "AT".toList <:+: u

instance (u : Str) : Decidable (NoMarkerWord u) := by
  unfold NoMarkerWord; infer_instance

/-- A plain path element: not empty, not `.`, not `..`, and without `/`. -/
def Plain (e : Str) : Prop := e ≠ [] ∧ e ≠ ".".toList ∧ e ≠ "..".toList ∧ '/' ∉ e

/-- A non-empty relative path of plain elements: no element between its separators is
empty, `.` or `..` (so it neither starts nor ends with `/`). -/
def PlainPath (p : Str) : Prop :=
  ∀ e ∈ Split p "/".toList, e ≠ [] ∧ e ≠ ".".toList ∧ e ≠ "..".toList

instance (p : Str) : Decidable (PlainPath p) := by
  unfold PlainPath; infer_instance

/-- What `filepath.Clean` can have written: for a relative path some `..` elements, then
plain elements. -/
def CleanOut (rooted : Bool) (out : List Str) : Prop :=
  ∃ k ps, out = List.replicate k "..".toList ++ ps ∧ (∀ e ∈ ps, Plain e) ∧
    (rooted = true → k = 0)

/-- The first token starts with one of the prefixes the `switch` of `NewGit` lists. -/
def RecognisedPrefix (r : Str) : Prop :=
  "http://".toList <+: r ∨ "https://".toList <+: r ∨ "git://".toList <+: r ∨
  "ssh://".toList <+: r ∨ "git@gitlab.com:".toList <+: r ∨ "git@github.com:".toList <+: r

instance (r : Str) : Decidable (RecognisedPrefix r) := by
  unfold RecognisedPrefix; infer_instance

/-- Decoding as the specification words it: the table in reverse order, `-AT-` first,
then `-SLASH-`, then `-COLON-`. -/
def decodeReverse (folder : Str) : Str :=
  Replace (Replace (Replace folder "-AT-".toList "@".toList) "-SLASH-".toList "/".toList)
    "-COLON-".toList ":".toList

/-- A model of `git` in which a successful clone creates the target folder: after a
`clone` command that reports no error, `os.Stat` of its last argument returns nil. -/
def CloneCreatesFolder (git : Git) : Prop :=
  ∀ (cmd : Cmd) (fs : FileSys) (target : Str),
    cmd.args.head? = some "clone".toList → cmd.args.getLast? = some target →
    (git cmd fs).1.err = none → (git cmd fs).2 target = none

/-- The command `commit` runs in a folder. -/
def revParseCmd (folder : Str) : Cmd :=
  { args := ["rev-parse".toList, "--short".toList, "HEAD".toList], dir := folder }

/-- A `git` that always succeeds; a clone creates its last argument, any other command
leaves the file system as it is. -/
def gitAlwaysOk : Git := fun cmd fs =>
  ({ output := "0123abc".toList, err := none },
   fun p =>
    if cmd.args.head? = some "clone".toList ∧ cmd.args.getLast? = some p then none
    else fs p)

/-- A `git` that always fails with `exit status 128` and leaves the file system as it
is. -/
def gitAlwaysFails : Git := fun _ fs =>
  ({ output := [], err := some "exit status 128".toList }, fs)

/-- A world with no folder at all and no command run. -/
def emptyWorld : World := { fs := fun _ => some StatError.notExist, log := [] }

/-- A world in which the parent directory is a regular file: `os.Stat` fails on every
path with an error that is not a not-exist error.  No command run. -/
def blockedWorld : World :=
  { fs := fun _ => some (StatError.other "not a directory".toList), log := [] }

/-- The part of a line before its first space (the whole line if it has none). -/
def firstToken (line : Str) : Str := line.takeWhile (fun c => c != ' ')

/-! ## The library model on the examples of the Go documentation and tests -/

/-- The examples of `strings.Replace` and `strings.Split` in the Go documentation. -/
theorem strings_examples :
    Replace "oink oink oink".toList "oink".toList "moo".toList = "moo moo moo".toList ∧
    Replace "banana".toList "ana".toList "o".toList = "bona".toList ∧
    Replace "abc".toList [] "-".toList = "-a-b-c-".toList ∧
    Split "a,b,c".toList ",".toList = ["a".toList, "b".toList, "c".toList] ∧
    Split "a man a plan a canal panama".toList "a ".toList =
      [[], "man ".toList, "plan ".toList, "canal panama".toList] ∧
    Split " xyz ".toList [] = [" ".toList, "x".toList, "y".toList, "z".toList, " ".toList] ∧
    Split [] ",".toList = [[]] := by
  decide

/-- Cases of the test table of `filepath.Clean` and `filepath.Join` in the Go source. -/
theorem filepath_examples :
    [("abc", "abc"), ("abc/def", "abc/def"), (".", "."), ("..", ".."), ("../..", "../.."),
     ("../../abc", "../../abc"), ("/abc", "/abc"), ("/", "/"), ("", "."), ("abc/", "abc"),
     ("./", "."), ("../../", "../.."), ("/abc/", "/abc"), ("abc//def//ghi", "abc/def/ghi"),
     ("//abc", "/abc"), ("//abc//", "/abc"), ("abc/./def", "abc/def"),
     ("/./abc/def", "/abc/def"), ("abc/.", "abc"), ("abc/def/ghi/../jkl", "abc/def/jkl"),
     ("abc/def/../ghi/../jkl", "abc/jkl"), ("abc/def/..", "abc"), ("abc/def/../..", "."),
     ("/abc/def/../..", "/"), ("abc/def/../../..", ".."), ("/abc/def/../../..", "/"),
     ("abc/def/../../../ghi/jkl/../../../mno", "../../mno"), ("/../abc", "/abc"),
     ("abc/./../def", "def"), ("abc//./../def", "def"),
     ("abc/../../././../def", "../../def")].all
      (fun (t : String × String) => Clean t.1.toList = t.2.toList) = true ∧
    Join ["a".toList, "b".toList] = "a/b".toList ∧ Join ["a".toList, []] = "a".toList ∧
    Join [[], "b".toList] = "b".toList ∧ Join ["/".toList, "a".toList] = "/a".toList ∧
    Join ["/".toList, []] = "/".toList ∧ Join ["a/".toList, "b".toList] = "a/b".toList ∧
    Join [[], []] = [] ∧ Join ["a".toList, "../b".toList] = "b".toList := by
  decide

/-! ## Lemmas on `Replace` -/

theorem replaceLoop_skip (old new : Str) (s : Str) (k : Nat) :
    replaceLoop old new k s = replaceLoop old new 0 (s.drop k) := by
  induction s generalizing k with
  | nil => cases k <;> simp [replaceLoop]
  | cons c s ih =>
    cases k with
    | zero => simp
    | succ k => simp only [replaceLoop, List.drop_succ_cons]; exact ih k

theorem replaceLoop_nil (old new : Str) : replaceLoop old new 0 [] = [] := by
  simp [replaceLoop]

theorem replaceLoop_match (old new t : Str) (h : old ≠ []) :
    replaceLoop old new 0 (old ++ t) = new ++ replaceLoop old new 0 t := by
  cases old with
  | nil => exact absurd rfl h
  | cons c old =>
    have hp : (c :: old).isPrefixOf (c :: (old ++ t)) = true := by
      simp [List.isPrefixOf_iff_prefix]
    simp only [List.cons_append, replaceLoop, hp, if_true, List.length_cons, Nat.add_sub_cancel]
    rw [replaceLoop_skip]
    simp

theorem replaceLoop_cons (old new s : Str) (c : Char) (h : old.isPrefixOf (c :: s) = false) :
    replaceLoop old new 0 (c :: s) = c :: replaceLoop old new 0 s := by
  simp [replaceLoop, h]

/-- Replacing a one-character pattern is a character-wise substitution. -/
theorem replaceLoop_single (x : Char) (new s : Str) :
    replaceLoop [x] new 0 s = s.flatMap (fun c => if c = x then new else [c]) := by
  induction s with
  | nil => simp [replaceLoop]
  | cons c s ih =>
    by_cases hc : c = x
    · subst hc
      have := replaceLoop_match [c] new s (by simp)
      simp only [List.singleton_append] at this
      rw [this, ih]; simp
    · have hp : [x].isPrefixOf (c :: s) = false := by
        simp [List.isPrefixOf, Ne.symm hc]
      rw [replaceLoop_cons _ _ _ _ hp, ih]; simp [hc]

theorem Replace_single (x : Char) (new s : Str) :
    Replace s [x] new = s.flatMap (fun c => if c = x then new else [c]) := by
  simp [Replace, replaceLoop_single]


/-! ## Encoding is a character-wise escape -/

theorem escape_nil (c s a : Bool) : escape c s a [] = [] := rfl

theorem escape_cons (c s a : Bool) (ch : Char) (u : Str) :
    escape c s a (ch :: u) = escChar c s a ch ++ escape c s a u := by
  simp [escape]

theorem escape_none (u : Str) : escape false false false u = u := by
  induction u with
  | nil => rfl
  | cons ch u ih =>
    rw [escape_cons, ih]
    simp [escChar]

theorem FromURL_eq_escape (u : Str) : FromURL u = escape true true true u := by
  have h : FromURL u =
      Replace (Replace (Replace u [':'] "-COLON-".toList) ['/'] "-SLASH-".toList) ['@']
        "-AT-".toList := rfl
  rw [h, Replace_single, Replace_single, Replace_single, List.flatMap_assoc, List.flatMap_assoc]
  unfold escape
  congr 1
  funext ch
  unfold escChar
  by_cases h1 : ch = ':'
  · subst h1; decide
  · by_cases h2 : ch = '/'
    · subst h2; decide
    · by_cases h3 : ch = '@'
      · subst h3; decide
      · simp [h1, h2, h3]


/-! ## Decoding one marker -/

theorem isPrefixOf_escape (c s a : Bool) (w : Str)
    (hw : ∀ x ∈ w, x ≠ '-' ∧ x ≠ ':' ∧ x ≠ '/' ∧ x ≠ '@') (u : Str) :
    w.isPrefixOf (escape c s a u) = w.isPrefixOf u := by
  induction w generalizing u with
  | nil => simp
  | cons x w ih =>
    obtain ⟨hx1, hx2, hx3, hx4⟩ := hw x (List.mem_cons_self _ _)
    have hw2 : ∀ y ∈ w, y ≠ '-' ∧ y ≠ ':' ∧ y ≠ '/' ∧ y ≠ '@' :=
      fun y hy => hw y (List.mem_cons_of_mem _ hy)
    have b1 : (x == '-') = false := by simp [hx1]
    have b2 : (x == ':') = false := by simp [hx2]
    have b3 : (x == '/') = false := by simp [hx3]
    have b4 : (x == '@') = false := by simp [hx4]
    cases u with
    | nil => simp [escape]
    | cons ch u =>
      rw [escape_cons]
      by_cases h1 : ch = ':'
      · subst h1; cases c <;> simp [escChar, List.isPrefixOf, b1, b2, ih hw2]
      · by_cases h2 : ch = '/'
        · subst h2; cases s <;> simp [escChar, List.isPrefixOf, b1, b3, ih hw2]
        · by_cases h3 : ch = '@'
          · subst h3; cases a <;> simp [escChar, List.isPrefixOf, b1, b4, ih hw2]
          · simp [escChar, h1, h2, h3, List.isPrefixOf, ih hw2]

theorem isPrefixOf_append_false (w v t : Str) (h : w.isPrefixOf t = false) :
    (w ++ v).isPrefixOf t = false := by
  cases hb : (w ++ v).isPrefixOf t with
  | false => rfl
  | true =>
    rw [List.isPrefixOf_iff_prefix] at hb
    have : w <+: t := (List.prefix_append w v).trans hb
    rw [← List.isPrefixOf_iff_prefix] at this
    rw [this] at h; cases h

theorem replaceLoop_dash (new w t : Str) (h : w.isPrefixOf t = false) :
    replaceLoop ('-' :: (w ++ ['-'])) new 0 ('-' :: t) =
      '-' :: replaceLoop ('-' :: (w ++ ['-'])) new 0 t := by
  apply replaceLoop_cons
  simp [List.isPrefixOf, isPrefixOf_append_false w ['-'] t h]

theorem replaceLoop_other (new w t : Str) (ch : Char) (h : ch ≠ '-') :
    replaceLoop ('-' :: w) new 0 (ch :: t) = ch :: replaceLoop ('-' :: w) new 0 t := by
  apply replaceLoop_cons
  simp [List.isPrefixOf, Ne.symm h]

theorem replaceLoop_letters (new w v t : Str) (hv : ∀ y ∈ v, y ≠ '-') :
    replaceLoop ('-' :: w) new 0 (v ++ t) = v ++ replaceLoop ('-' :: w) new 0 t := by
  induction v with
  | nil => rfl
  | cons y v ih =>
    rw [List.cons_append, replaceLoop_other _ _ _ _ (hv y (List.mem_cons_self _ _)),
      ih (fun z hz => hv z (List.mem_cons_of_mem _ hz))]
    rfl

/-- Decoding one marker `-w-` of a character-wise encoding `enc`: every other character
is encoded as itself or as a marker of letters that does not start with `w`, and `w`
never starts an encoded suffix of `u`. -/
theorem decode_marker (w new : Str) (x : Char) (enc dec : Char → Str)
    (hx : enc x = '-' :: (w ++ ['-'])) (hd : dec x = new)
    (hother : ∀ ch, ch ≠ x → dec ch = enc ch ∧ (enc ch = [ch] ∨
      ∃ v, enc ch = '-' :: (v ++ ['-']) ∧ (∀ y ∈ v, y ≠ '-') ∧
        ∀ t, w.isPrefixOf (v ++ '-' :: t) = false))
    (u : Str) (hu : ∀ t, t <:+ u → w.isPrefixOf (t.flatMap enc) = false) :
    replaceLoop ('-' :: (w ++ ['-'])) new 0 (u.flatMap enc) = u.flatMap dec := by
  induction u with
  | nil => rfl
  | cons ch u ih =>
    have ih := ih (fun t ht => hu t (ht.trans (List.suffix_cons ch u)))
    have hp := hu u (List.suffix_cons ch u)
    rw [List.flatMap_cons, List.flatMap_cons]
    by_cases hc : ch = x
    · subst hc
      rw [hx, hd, replaceLoop_match _ _ _ (by simp), ih]
    · obtain ⟨e1, e2⟩ := hother ch hc
      rw [e1]
      rcases e2 with e2 | ⟨v, e2, hv, hwv⟩
      · rw [e2, List.singleton_append]
        by_cases hdash : ch = '-'
        · subst hdash
          rw [replaceLoop_dash _ _ _ hp, ih]; rfl
        · rw [replaceLoop_other _ _ _ _ hdash, ih]; rfl
      · rw [e2]
        have e3 : '-' :: (v ++ ['-']) ++ u.flatMap enc = '-' :: (v ++ '-' :: u.flatMap enc) := by
          simp
        rw [e3, replaceLoop_dash _ _ _ (hwv _), replaceLoop_letters _ _ _ _ hv,
          replaceLoop_dash _ _ _ hp, ih]
        simp

theorem isPrefixOf_false_of_absent {w u t : Str} (h : ¬ w <:+: u) (ht : t <:+ u) :
    w.isPrefixOf t = false := by
  cases hb : w.isPrefixOf t with
  | false => rfl
  | true => exact absurd ((List.isPrefixOf_iff_prefix.mp hb).isInfix.trans ht.isInfix) h

theorem decode_colon (s a : Bool) (u : Str) (h : ¬ "COLON".toList <:+: u) :
    Replace (escape true s a u) "-COLON-".toList ":".toList = escape false s a u := by
  have hne : "-COLON-".toList ≠ [] := by decide
  simp only [Replace, hne, if_false]
  refine decode_marker "COLON".toList [':'] ':' (escChar true s a) (escChar false s a)
    (by simp [escChar]) (by simp [escChar]) ?_ u ?_
  · intro ch hc
    refine ⟨by simp [escChar, hc], ?_⟩
    by_cases h2 : ch = '/'
    · subst h2
      cases s
      · left; simp [escChar]
      · right; exact ⟨"SLASH".toList, by simp [escChar], by decide, fun t => rfl⟩
    · by_cases h3 : ch = '@'
      · subst h3
        cases a
        · left; simp [escChar]
        · right; exact ⟨"AT".toList, by simp [escChar], by decide, fun t => rfl⟩
      · left; simp [escChar, hc, h2, h3]
  · intro t ht
    have := isPrefixOf_escape true s a "COLON".toList (by decide) t
    unfold escape at this
    rw [this]
    exact isPrefixOf_false_of_absent h ht

theorem decode_slash (c a : Bool) (u : Str) (h : ¬ "SLASH".toList <:+: u) :
    Replace (escape c true a u) "-SLASH-".toList "/".toList = escape c false a u := by
  have hne : "-SLASH-".toList ≠ [] := by decide
  simp only [Replace, hne, if_false]
  refine decode_marker "SLASH".toList ['/'] '/' (escChar c true a) (escChar c false a)
    (by simp [escChar]) (by simp [escChar]) ?_ u ?_
  · intro ch hc
    refine ⟨by simp [escChar, hc], ?_⟩
    by_cases h2 : ch = ':'
    · subst h2
      cases c
      · left; simp [escChar]
      · right; exact ⟨"COLON".toList, by simp [escChar], by decide, fun t => rfl⟩
    · by_cases h3 : ch = '@'
      · subst h3
        cases a
        · left; simp [escChar]
        · right; exact ⟨"AT".toList, by simp [escChar], by decide, fun t => rfl⟩
      · left; simp [escChar, hc, h2, h3]
  · intro t ht
    have := isPrefixOf_escape c true a "SLASH".toList (by decide) t
    unfold escape at this
    rw [this]
    exact isPrefixOf_false_of_absent h ht

theorem decode_at (c s : Bool) (u : Str) (h : ¬ "AT".toList <:+: u) :
    Replace (escape c s true u) "-AT-".toList "@".toList = escape c s false u := by
  have hne : "-AT-".toList ≠ [] := by decide
  simp only [Replace, hne, if_false]
  refine decode_marker "AT".toList ['@'] '@' (escChar c s true) (escChar c s false)
    (by simp [escChar]) (by simp [escChar]) ?_ u ?_
  · intro ch hc
    refine ⟨by simp [escChar, hc], ?_⟩
    by_cases h2 : ch = ':'
    · subst h2
      cases c
      · left; simp [escChar]
      · right; exact ⟨"COLON".toList, by simp [escChar], by decide, fun t => rfl⟩
    · by_cases h3 : ch = '/'
      · subst h3
        cases s
        · left; simp [escChar]
        · right; exact ⟨"SLASH".toList, by simp [escChar], by decide, fun t => rfl⟩
      · left; simp [escChar, hc, h2, h3]
  · intro t ht
    have := isPrefixOf_escape c s true "AT".toList (by decide) t
    unfold escape at this
    rw [this]
    exact isPrefixOf_false_of_absent h ht

/-- Round trip of the codec on strings without the marker words. -/
theorem ToURL_FromURL_of_noMarkerWord (u : Str) (h : NoMarkerWord u) :
    ToURL (FromURL u) = u := by
  have e : ∀ f, ToURL f =
      Replace (Replace (Replace f "-COLON-".toList ":".toList) "-SLASH-".toList "/".toList)
        "-AT-".toList "@".toList := fun _ => rfl
  rw [e, FromURL_eq_escape, decode_colon _ _ _ h.1, decode_slash _ _ _ h.2.1,
    decode_at _ _ _ h.2.2, escape_none]


/-! ## Lemmas on `Split` with a one-character separator -/

theorem splitLoop_ne_nil (sep : Str) (k : Nat) (s : Str) : splitLoop sep k s ≠ [] := by
  induction s generalizing k with
  | nil => cases k <;> simp [splitLoop]
  | cons c s ih =>
    cases k with
    | succ k => simpa [splitLoop] using ih k
    | zero =>
      simp only [splitLoop]
      split_ifs
      · simp
      · split <;> simp

theorem splitLoop_sep (x : Char) (t : Str) :
    splitLoop [x] 0 (x :: t) = [] :: splitLoop [x] 0 t := by
  simp [splitLoop, List.isPrefixOf]

theorem splitLoop_cons_ne (x c : Char) (t piece : Str) (pieces : List Str) (h : c ≠ x)
    (ht : splitLoop [x] 0 t = piece :: pieces) :
    splitLoop [x] 0 (c :: t) = (c :: piece) :: pieces := by
  simp [splitLoop, List.isPrefixOf, Ne.symm h, ht]

/-- A string without the separator is a single piece. -/
theorem splitLoop_of_not_mem (x : Char) (r : Str) (h : x ∉ r) : splitLoop [x] 0 r = [r] := by
  induction r with
  | nil => simp [splitLoop]
  | cons c r ih =>
    have hc : c ≠ x := fun e => h (e ▸ List.mem_cons_self _ _)
    exact splitLoop_cons_ne x c r r [] hc (ih (fun hm => h (List.mem_cons_of_mem _ hm)))

/-- The first piece ends at the first separator. -/
theorem splitLoop_append (x : Char) (r t : Str) (h : x ∉ r) :
    splitLoop [x] 0 (r ++ x :: t) = r :: splitLoop [x] 0 t := by
  induction r with
  | nil => exact splitLoop_sep x t
  | cons c r ih =>
    have hc : c ≠ x := fun e => h (e ▸ List.mem_cons_self _ _)
    exact splitLoop_cons_ne x c _ r _ hc (ih (fun hm => h (List.mem_cons_of_mem _ hm)))

theorem Split_single (s : Str) (x : Char) : Split s [x] = splitLoop [x] 0 s := by
  simp [Split]

/-- The first piece of a split is the text before the first separator. -/
theorem splitLoop_head (x : Char) (s : Str) :
    ∃ rest, splitLoop [x] 0 s = s.takeWhile (fun c => c != x) :: rest := by
  induction s with
  | nil => exact ⟨[], by simp [splitLoop]⟩
  | cons c s ih =>
    by_cases hc : c = x
    · subst hc
      exact ⟨splitLoop [c] 0 s, by simp [splitLoop_sep]⟩
    · obtain ⟨rest, hr⟩ := ih
      exact ⟨rest, by rw [splitLoop_cons_ne x c s _ rest hc hr]; simp [hc]⟩


/-! ## The parser -/

/-- The first token is the part of the line before its first space. -/
theorem firstToken_spec (line : Str) :
    ' ' ∉ firstToken line ∧
      (line = firstToken line ∨ ∃ rest, line = firstToken line ++ ' ' :: rest) := by
  induction line with
  | nil => exact ⟨by simp [firstToken], Or.inl rfl⟩
  | cons c line ih =>
    by_cases hc : c = ' '
    · subst hc
      exact ⟨by simp [firstToken], Or.inr ⟨line, by simp [firstToken]⟩⟩
    · have e : firstToken (c :: line) = c :: firstToken line := by
        simp [firstToken, hc]
      rw [e]
      refine ⟨?_, ?_⟩
      · intro hm
        rcases List.mem_cons.mp hm with h | h
        · exact hc h.symm
        · exact ih.1 h
      · rcases ih.2 with h | ⟨rest, h⟩
        · exact Or.inl (by rw [← h])
        · exact Or.inr ⟨rest, by rw [List.cons_append, ← h]⟩

/-- The project `NewGit` builds, read off its code: `parts[0]` is always in range. -/
theorem NewGit_eq (cwd line : Str) :
    NewGit cwd line = some
      { URL := repoURL (firstToken line)
        Version := ((Split line " ".toList).foldl scanPart ([], [])).1
        folder := Join [cwd, FromURL (repoURL (firstToken line))]
        inner := ((Split line " ".toList).foldl scanPart ([], [])).2 } := by
  obtain ⟨rest, hr⟩ := splitLoop_head ' ' line
  have hs : Split line " ".toList = firstToken line :: rest := by
    rw [show " ".toList = [' '] from rfl, Split_single, hr]; rfl
  simp only [NewGit, hs, List.head?_cons]

theorem NewGit_isSome (cwd line : Str) :
    ∃ g, NewGit cwd line = some g ∧ g.folder = Join [cwd, FromURL g.URL] :=
  ⟨_, NewGit_eq cwd line, rfl⟩

theorem scan_version (parts : List Str) (acc : Str × Str) :
    (parts.foldl scanPart acc).1 =
      match (parts.filter (fun t => HasPrefix t branchMarker)).getLast? with
      | none => acc.1
      | some t => ReplaceAll t branchMarker [] := by
  induction parts using List.reverseRecOn with
  | nil => rfl
  | append_singleton ps p ih =>
    rw [List.foldl_append, List.filter_append]
    by_cases hp : HasPrefix p branchMarker = true
    · simp [scanPart, hp]
    · simp [scanPart, hp, ih]

theorem scan_inner (parts : List Str) (acc : Str × Str) :
    (parts.foldl scanPart acc).2 =
      match (parts.filter (fun t => HasPrefix t pathMarker)).getLast? with
      | none => acc.2
      | some t => ReplaceAll t pathMarker [] := by
  induction parts using List.reverseRecOn with
  | nil => rfl
  | append_singleton ps p ih =>
    rw [List.foldl_append, List.filter_append]
    by_cases hp : HasPrefix p pathMarker = true
    · simp [scanPart, hp]
    · simp [scanPart, hp, ih]

theorem not_infix_cons {w u : Str} {ch : Char} (h : ¬ w <:+: ch :: u) : ¬ w <:+: u :=
  fun h2 => h (h2.trans (List.infix_cons (List.infix_refl u)))

/-- A string in which the pattern does not occur is left unchanged. -/
theorem replaceLoop_of_not_infix (old new s : Str) (h : ¬ old <:+: s) :
    replaceLoop old new 0 s = s := by
  induction s with
  | nil => rfl
  | cons c s ih =>
    rw [replaceLoop_cons _ _ _ _ (isPrefixOf_false_of_absent h (List.suffix_refl _)),
      ih (not_infix_cons h)]

/-- Deleting a marker from a token that carries it only as its leading prefix leaves
the rest of the token. -/
theorem ReplaceAll_marker (marker rest : Str) (hm : marker ≠ [])
    (h : ¬ marker <:+: rest) : ReplaceAll (marker ++ rest) marker [] = rest := by
  simp only [ReplaceAll, Replace, hm, if_false]
  rw [replaceLoop_match _ _ _ hm, replaceLoop_of_not_infix _ _ _ h]; rfl


/-! ## Lemmas on `Split`, `strings.Join` and `filepath.Clean` -/

theorem splitLoop_no_sep (x : Char) (s : Str) : ∀ e ∈ splitLoop [x] 0 s, x ∉ e := by
  induction s with
  | nil => simp [splitLoop]
  | cons c s ih =>
    by_cases hc : c = x
    · subst hc
      rw [splitLoop_sep]
      intro e he
      rcases List.mem_cons.mp he with h | h
      · subst h; simp
      · exact ih e h
    · cases hs : splitLoop [x] 0 s with
      | nil => exact absurd hs (splitLoop_ne_nil _ _ _)
      | cons piece pieces =>
        rw [hs] at ih
        rw [splitLoop_cons_ne x c s piece pieces hc hs]
        intro e he
        rcases List.mem_cons.mp he with h | h
        · subst h
          have := ih piece (List.mem_cons_self _ _)
          simp [this, Ne.symm hc]
        · exact ih e (List.mem_cons_of_mem _ h)

theorem splitLoop_append_sep (x : Char) (p q : Str) :
    splitLoop [x] 0 (p ++ x :: q) = splitLoop [x] 0 p ++ splitLoop [x] 0 q := by
  induction p with
  | nil => rw [List.nil_append, splitLoop_sep]; simp [splitLoop]
  | cons c p ih =>
    by_cases hc : c = x
    · subst hc
      rw [List.cons_append, splitLoop_sep, splitLoop_sep, ih]; rfl
    · cases hs : splitLoop [x] 0 p with
      | nil => exact absurd hs (splitLoop_ne_nil _ _ _)
      | cons piece pieces =>
        rw [hs] at ih
        rw [List.cons_append, splitLoop_cons_ne x c p piece pieces hc hs,
          splitLoop_cons_ne x c _ piece (pieces ++ splitLoop [x] 0 q) hc (by rw [ih]; rfl)]
        rfl

theorem stringsJoin_cons (sep e : Str) (es : List Str) (h : es ≠ []) :
    stringsJoin sep (e :: es) = e ++ sep ++ stringsJoin sep es := by
  cases es with
  | nil => exact absurd rfl h
  | cons e2 es => rfl

theorem stringsJoin_splitLoop (x : Char) (s : Str) :
    stringsJoin [x] (splitLoop [x] 0 s) = s := by
  induction s with
  | nil => simp [splitLoop, stringsJoin]
  | cons c s ih =>
    by_cases hc : c = x
    · subst hc
      rw [splitLoop_sep, stringsJoin_cons _ _ _ (splitLoop_ne_nil _ _ _), ih]; rfl
    · cases hs : splitLoop [x] 0 s with
      | nil => exact absurd hs (splitLoop_ne_nil _ _ _)
      | cons piece pieces =>
        rw [hs] at ih
        rw [splitLoop_cons_ne x c s piece pieces hc hs]
        cases pieces with
        | nil => simp only [stringsJoin] at ih ⊢; rw [ih]
        | cons p2 ps =>
          rw [stringsJoin_cons _ _ _ (by simp)] at ih ⊢
          rw [← ih]; simp

theorem splitLoop_stringsJoin (x : Char) (st : List Str) (hne : st ≠ [])
    (h : ∀ e ∈ st, x ∉ e) : splitLoop [x] 0 (stringsJoin [x] st) = st := by
  induction st with
  | nil => exact absurd rfl hne
  | cons e es ih =>
    cases es with
    | nil => exact splitLoop_of_not_mem x e (h e (List.mem_cons_self _ _))
    | cons e2 es =>
      rw [stringsJoin_cons _ _ _ (by simp), List.append_assoc, List.singleton_append,
        splitLoop_append x e _ (h e (List.mem_cons_self _ _)),
        ih (by simp) (fun a ha => h a (List.mem_cons_of_mem _ ha))]

theorem stringsJoin_append (sep : Str) (as bs : List Str) (ha : as ≠ []) (hb : bs ≠ []) :
    stringsJoin sep (as ++ bs) = stringsJoin sep as ++ sep ++ stringsJoin sep bs := by
  induction as with
  | nil => exact absurd rfl ha
  | cons a as ih =>
    cases as with
    | nil => rw [List.singleton_append, stringsJoin_cons _ _ _ hb]; rfl
    | cons a2 as =>
      show stringsJoin sep (a :: (a2 :: as ++ bs)) = _
      rw [stringsJoin_cons sep a (a2 :: as ++ bs) (by simp), ih (by simp),
        stringsJoin_cons sep a (a2 :: as) (by simp)]
      simp

theorem cleanStep_plain (rooted : Bool) (out : List Str) (e : Str) (h : Plain e) :
    cleanStep rooted out e = out ++ [e] := by
  have h2 : ¬ (e = [] ∨ e = ".".toList) := by
    rintro (h' | h')
    · exact h.1 h'
    · exact h.2.1 h'
  rw [cleanStep, if_neg h2, if_neg h.2.2.1]

theorem foldl_cleanStep_plain (rooted : Bool) (out ps : List Str) (h : ∀ e ∈ ps, Plain e) :
    ps.foldl (cleanStep rooted) out = out ++ ps := by
  induction ps generalizing out with
  | nil => simp
  | cons p ps ih =>
    rw [List.foldl_cons, cleanStep_plain _ _ _ (h p (List.mem_cons_self _ _)),
      ih _ (fun e he => h e (List.mem_cons_of_mem _ he))]
    simp

theorem cleanStep_dots (k : Nat) :
    cleanStep false (List.replicate k "..".toList) "..".toList =
      List.replicate (k + 1) "..".toList := by
  cases k with
  | zero => decide
  | succ k =>
    have hl : (List.replicate (k + 1) "..".toList).getLast? = some "..".toList := by
      rw [List.replicate_succ', List.getLast?_append]; rfl
    have e1 : "..".toList ≠ [] := by decide
    have e2 : "..".toList ≠ ".".toList := by decide
    simp only [cleanStep, e1, e2, hl, or_self, if_false, if_true, ne_eq, not_true_eq_false,
      Bool.false_eq_true]
    rw [← List.replicate_succ']

theorem foldl_cleanStep_dots (j k : Nat) :
    (List.replicate k "..".toList).foldl (cleanStep false) (List.replicate j "..".toList) =
      List.replicate (j + k) "..".toList := by
  induction k generalizing j with
  | zero => rfl
  | succ k ih =>
    rw [List.replicate_succ, List.foldl_cons, cleanStep_dots, ih]
    congr 1; omega


theorem cleanOut_nil (rooted : Bool) : CleanOut rooted [] :=
  ⟨0, [], rfl, by simp, fun _ => rfl⟩

theorem cleanOut_append_plain (rooted : Bool) (out : List Str) (e : Str)
    (h : CleanOut rooted out) (he : Plain e) : CleanOut rooted (out ++ [e]) := by
  obtain ⟨k, ps, rfl, hps, hk⟩ := h
  refine ⟨k, ps ++ [e], by simp, ?_, hk⟩
  intro a ha
  rcases List.mem_append.mp ha with h1 | h1
  · exact hps a h1
  · rw [List.mem_singleton.mp h1]; exact he

theorem cleanOut_no_sep (rooted : Bool) (out : List Str) (h : CleanOut rooted out) :
    ∀ e ∈ out, e ≠ [] ∧ '/' ∉ e := by
  obtain ⟨k, ps, rfl, hps, _⟩ := h
  intro e he
  rcases List.mem_append.mp he with h1 | h1
  · rw [(List.mem_replicate.mp h1).2]; decide
  · exact ⟨(hps e h1).1, (hps e h1).2.2.2⟩

theorem cleanStep_cleanOut (rooted : Bool) (out : List Str) (e : Str)
    (h : CleanOut rooted out) (he : '/' ∉ e) : CleanOut rooted (cleanStep rooted out e) := by
  by_cases h1 : e = [] ∨ e = ".".toList
  · rw [cleanStep, if_pos h1]; exact h
  · by_cases h2 : e = "..".toList
    · subst h2
      obtain ⟨k, ps, rfl, hps, hk⟩ := h
      rcases List.eq_nil_or_concat ps with hnil | ⟨qs, q, hq⟩
      · subst hnil
        rw [List.append_nil]
        cases rooted with
        | false => rw [cleanStep_dots]; exact ⟨k + 1, [], by simp, by simp, by simp⟩
        | true => rw [hk rfl]; exact ⟨0, [], by decide, by simp, fun _ => rfl⟩
      · rw [List.concat_eq_append] at hq
        subst hq
        have hqp : Plain q := hps q (by simp)
        have hl : (List.replicate k "..".toList ++ (qs ++ [q])).getLast? = some q := by
          rw [← List.append_assoc, List.getLast?_append]; rfl
        have hd : (List.replicate k "..".toList ++ (qs ++ [q])).dropLast =
            List.replicate k "..".toList ++ qs := by
          rw [← List.append_assoc, List.dropLast_concat]
        rw [cleanStep, if_neg h1, if_pos rfl, hl]
        simp only [ne_eq, hqp.2.2.1, not_false_eq_true, if_true, hd]
        exact ⟨k, qs, rfl, fun a ha => hps a (by simp [ha]), hk⟩
    · have hp : Plain e := ⟨fun h' => h1 (Or.inl h'), fun h' => h1 (Or.inr h'), h2, he⟩
      rw [cleanStep_plain _ _ _ hp]
      exact cleanOut_append_plain _ _ _ h hp

theorem foldl_cleanStep_cleanOut (rooted : Bool) (comps out : List Str)
    (h : CleanOut rooted out) (hc : ∀ e ∈ comps, '/' ∉ e) :
    CleanOut rooted (comps.foldl (cleanStep rooted) out) := by
  induction comps generalizing out with
  | nil => exact h
  | cons c cs ih =>
    exact ih _ (cleanStep_cleanOut _ _ _ h (hc c (List.mem_cons_self _ _)))
      (fun e he => hc e (List.mem_cons_of_mem _ he))

theorem isRooted_stringsJoin (sep e : Str) (es : List Str) (h1 : e ≠ []) (h2 : '/' ∉ e) :
    stringsJoin sep (e :: es) ≠ [] ∧ isRooted (stringsJoin sep (e :: es)) = false := by
  cases e with
  | nil => exact absurd rfl h1
  | cons c e =>
    have hc : c ≠ '/' := fun hh => h2 (hh ▸ List.mem_cons_self _ _)
    cases es with
    | nil => simp [stringsJoin, isRooted, hc]
    | cons e2 es => simp [stringsJoin, isRooted, hc]

/-- Cleaning is the identity on a cleaned path with at least one element: the elements
read back are the elements written. -/
theorem writeOut_read (rooted : Bool) (out : List Str) (h : CleanOut rooted out)
    (hne : out ≠ []) :
    writeOut rooted out ≠ [] ∧ isRooted (writeOut rooted out) = rooted ∧
      cleanElems (writeOut rooted out) = out := by
  suffices hh : writeOut rooted out ≠ [] ∧ isRooted (writeOut rooted out) = rooted ∧
      (Split (writeOut rooted out) "/".toList).foldl (cleanStep rooted) [] = out by
    refine ⟨hh.1, hh.2.1, ?_⟩
    rw [cleanElems, hh.2.1]; exact hh.2.2
  have hsep := cleanOut_no_sep rooted out h
  have hS : ∀ s, Split s "/".toList = splitLoop ['/'] 0 s := fun s => Split_single s '/'
  obtain ⟨k, ps, hout, hps, hk⟩ := h
  cases rooted with
  | false =>
    have hw : writeOut false out = stringsJoin ['/'] out := by
      simp only [writeOut, hne, if_false, Bool.false_eq_true]; rfl
    cases hout2 : out with
    | nil => exact absurd hout2 hne
    | cons e es =>
      have he := hsep e (by rw [hout2]; exact List.mem_cons_self _ _)
      have hr := isRooted_stringsJoin ['/'] e es he.1 he.2
      rw [← hout2, hw, hS, splitLoop_stringsJoin '/' out hne (fun a ha => (hsep a ha).2)]
      rw [hout2] at hw
      refine ⟨by rw [hout2]; exact hr.1, by rw [hout2]; exact hr.2, ?_⟩
      rw [hout, List.foldl_append]
      have := foldl_cleanStep_dots 0 k
      simp only [List.replicate_zero, Nat.zero_add] at this
      rw [this, foldl_cleanStep_plain _ _ _ hps]
  | true =>
    have hk0 := hk rfl
    subst hk0
    simp only [List.replicate_zero, List.nil_append] at hout
    subst hout
    have hw : writeOut true out = '/' :: stringsJoin ['/'] out := by
      simp only [writeOut, if_true]; rfl
    rw [hw, hS, splitLoop_sep, splitLoop_stringsJoin '/' out hne (fun a ha => (hsep a ha).2)]
    refine ⟨by simp, by simp [isRooted], ?_⟩
    rw [List.foldl_cons]
    have e0 : cleanStep true [] [] = [] := by decide
    rw [e0, foldl_cleanStep_plain _ _ _ hps]; rfl

theorem Clean_append_sep (p q : Str) (hp : p ≠ []) :
    Clean (p ++ '/' :: q) = writeOut (isRooted p)
      ((Split q "/".toList).foldl (cleanStep (isRooted p)) (cleanElems p)) := by
  have hr : isRooted (p ++ '/' :: q) = isRooted p := by
    cases p with
    | nil => exact absurd rfl hp
    | cons c p => simp [isRooted]
  have hne : p ++ '/' :: q ≠ [] := by simp
  rw [Clean, if_neg hne, cleanElems, cleanElems, hr, show "/".toList = ['/'] from rfl,
    Split_single, Split_single, Split_single, splitLoop_append_sep, List.foldl_append]


/-! ## The folder of a project -/

theorem mem_escape_all (u : Str) (x : Char) (h : x ∈ escape true true true u) :
    x ≠ ':' ∧ x ≠ '/' ∧ x ≠ '@' := by
  simp only [escape, List.mem_flatMap] at h
  obtain ⟨ch, _, hx⟩ := h
  by_cases h1 : ch = ':'
  · subst h1
    have : x ∈ "-COLON-".toList := by simpa [escChar] using hx
    revert this x; decide
  · by_cases h2 : ch = '/'
    · subst h2
      have : x ∈ "-SLASH-".toList := by simpa [escChar] using hx
      revert this x; decide
    · by_cases h3 : ch = '@'
      · subst h3
        have : x ∈ "-AT-".toList := by simpa [escChar] using hx
        revert this x; decide
      · have : x = ch := by simpa [escChar, h1, h2, h3] using hx
        subst this
        exact ⟨h1, h2, h3⟩

/-- No `:`, `/` or `@` is left in a folder name. -/
theorem FromURL_no_special (u : Str) :
    ':' ∉ FromURL u ∧ '/' ∉ FromURL u ∧ '@' ∉ FromURL u := by
  rw [FromURL_eq_escape]
  exact ⟨fun h => (mem_escape_all u _ h).1 rfl, fun h => (mem_escape_all u _ h).2.1 rfl,
    fun h => (mem_escape_all u _ h).2.2 rfl⟩

theorem head_of_isPrefixOf (pre s : Str) (c : Char) (rest : Str) (hp : pre = c :: rest)
    (h : HasPrefix s pre = true) : ∃ t, s = c :: t := by
  rw [HasPrefix, List.isPrefixOf_iff_prefix] at h
  obtain ⟨t, rfl⟩ := h
  exact ⟨rest ++ t, by rw [hp]; rfl⟩

/-- The URL of a project starts with one of the letters `h`, `g`, `s`. -/
theorem repoURL_head (repo : Str) :
    ∃ c rest, repoURL repo = c :: rest ∧ (c = 'h' ∨ c = 'g' ∨ c = 's') := by
  by_cases h : isFullURL repo = true
  · rw [repoURL, if_pos h]
    simp only [isFullURL, Bool.or_eq_true] at h
    rcases h with ((((h | h) | h) | h) | h) | h
    · obtain ⟨t, ht⟩ := head_of_isPrefixOf _ _ 'h' _ rfl h
      exact ⟨'h', t, ht, Or.inl rfl⟩
    · obtain ⟨t, ht⟩ := head_of_isPrefixOf _ _ 'h' _ rfl h
      exact ⟨'h', t, ht, Or.inl rfl⟩
    · obtain ⟨t, ht⟩ := head_of_isPrefixOf _ _ 'g' _ rfl h
      exact ⟨'g', t, ht, Or.inr (Or.inl rfl)⟩
    · obtain ⟨t, ht⟩ := head_of_isPrefixOf _ _ 's' _ rfl h
      exact ⟨'s', t, ht, Or.inr (Or.inr rfl)⟩
    · obtain ⟨t, ht⟩ := head_of_isPrefixOf _ _ 'g' _ rfl h
      exact ⟨'g', t, ht, Or.inr (Or.inl rfl)⟩
    · obtain ⟨t, ht⟩ := head_of_isPrefixOf _ _ 'g' _ rfl h
      exact ⟨'g', t, ht, Or.inr (Or.inl rfl)⟩
  · rw [repoURL, if_neg h]
    exact ⟨'h', "ttps://github.com/".toList ++ repo, rfl, Or.inl rfl⟩

/-- The folder name of a project is a plain path element. -/
theorem plain_folderName (repo : Str) : Plain (FromURL (repoURL repo)) := by
  obtain ⟨c, rest, hu, hc⟩ := repoURL_head repo
  have hsl := (FromURL_no_special (repoURL repo)).2.1
  have hcons : FromURL (repoURL repo) = c :: escape true true true rest := by
    rw [FromURL_eq_escape, hu, escape_cons]
    rcases hc with h | h | h <;> subst h <;> rfl
  have hne : c ≠ '.' := by rcases hc with h | h | h <;> subst h <;> decide
  rw [hcons] at hsl ⊢
  refine ⟨by simp, ?_, ?_, hsl⟩
  · intro h; exact hne (List.cons.inj h).1
  · intro h; exact hne (List.cons.inj h).1

theorem splitSlash_plain (n : Str) (hn : Plain n) : Split n "/".toList = [n] := by
  rw [show "/".toList = ['/'] from rfl, Split_single]
  exact splitLoop_of_not_mem '/' n hn.2.2.2

theorem cleanOut_cleanElems (path : Str) : CleanOut (isRooted path) (cleanElems path) := by
  rw [cleanElems, show "/".toList = ['/'] from rfl, Split_single]
  exact foldl_cleanStep_cleanOut _ _ _ (cleanOut_nil _) (splitLoop_no_sep '/' path)

/-- Joining a directory and a plain element appends the element to the cleaned
directory. -/
theorem Join_plain (cwd n : Str) (hn : Plain n) :
    Join [cwd, n] = writeOut (isRooted cwd) (cleanElems cwd ++ [n]) := by
  by_cases hc : cwd = []
  · subst hc
    have h1 : Join [[], n] = Clean n := by
      simp [Join, hn.1, stringsJoin]
    have hr : isRooted n = false := by
      have := isRooted_stringsJoin [] n [] hn.1 hn.2.2.2
      simpa [stringsJoin] using this.2
    rw [h1, Clean, if_neg hn.1, cleanElems, splitSlash_plain n hn, hr]
    have e0 : cleanElems [] = [] := by decide
    rw [e0]
    simp only [List.foldl_cons, List.foldl_nil]
    rw [cleanStep_plain _ _ _ hn]; rfl
  · have h1 : Join [cwd, n] = Clean (cwd ++ '/' :: n) := by
      simp [Join, hc, stringsJoin]
    rw [h1, Clean_append_sep _ _ hc, splitSlash_plain n hn]
    simp only [List.foldl_cons, List.foldl_nil]
    rw [cleanStep_plain _ _ _ hn]

/-- Joining a cleaned path (with at least one element) and the empty string gives the
path back. -/
theorem Join_empty (rooted : Bool) (out : List Str) (h : CleanOut rooted out)
    (hne : out ≠ []) : Join [writeOut rooted out, []] = writeOut rooted out := by
  obtain ⟨h1, h2, h3⟩ := writeOut_read rooted out h hne
  have e : Join [writeOut rooted out, []] = Clean (writeOut rooted out ++ '/' :: []) := by
    simp [Join, h1, stringsJoin]
  rw [e, Clean_append_sep _ _ h1, h2, h3]
  have e2 : Split [] "/".toList = [[]] := by decide
  rw [e2]
  simp only [List.foldl_cons, List.foldl_nil]
  have e3 : cleanStep rooted out [] = out := by simp [cleanStep]
  rw [e3]

theorem writeOut_append (rooted : Bool) (out ps : List Str) (h1 : out ≠ []) (h2 : ps ≠ []) :
    writeOut rooted (out ++ ps) = writeOut rooted out ++ '/' :: stringsJoin "/".toList ps := by
  have hne : out ++ ps ≠ [] := by simp [h1]
  have hj := stringsJoin_append "/".toList out ps h1 h2
  cases rooted with
  | false =>
    simp only [writeOut, Bool.false_eq_true, if_false, hne, h1]
    rw [hj]; simp
  | true =>
    simp only [writeOut, if_true]
    rw [hj]; simp

/-- Joining a cleaned path (with at least one element) and a plain relative path
appends `/` and the relative path. -/
theorem Join_plainPath (rooted : Bool) (out : List Str) (h : CleanOut rooted out)
    (hne : out ≠ []) (p : Str) (hp : PlainPath p) :
    Join [writeOut rooted out, p] = writeOut rooted out ++ '/' :: p := by
  obtain ⟨h1, h2, h3⟩ := writeOut_read rooted out h hne
  have e : Join [writeOut rooted out, p] = Clean (writeOut rooted out ++ '/' :: p) := by
    simp [Join, h1, stringsJoin]
  have hS : Split p "/".toList = splitLoop ['/'] 0 p := Split_single p '/'
  have hplain : ∀ e ∈ Split p "/".toList, Plain e := by
    intro a ha
    obtain ⟨a1, a2, a3⟩ := hp a ha
    rw [hS] at ha
    exact ⟨a1, a2, a3, splitLoop_no_sep '/' p a ha⟩
  rw [e, Clean_append_sep _ _ h1, h2, h3, foldl_cleanStep_plain _ _ _ hplain,
    writeOut_append _ _ _ hne (by rw [hS]; exact splitLoop_ne_nil _ _ _), hS]
  rw [show "/".toList = ['/'] from rfl, stringsJoin_splitLoop]


theorem writeOut_last_inj (rooted : Bool) (out : List Str) (n1 n2 : Str)
    (h : writeOut rooted (out ++ [n1]) = writeOut rooted (out ++ [n2])) : n1 = n2 := by
  by_cases ho : out = []
  · subst ho
    cases rooted <;> simpa [writeOut, stringsJoin] using h
  · rw [writeOut_append _ _ _ ho (by simp), writeOut_append _ _ _ ho (by simp)] at h
    simpa [stringsJoin] using h

theorem isFullURL_iff (r : Str) : isFullURL r = true ↔ RecognisedPrefix r := by
  simp [isFullURL, RecognisedPrefix, HasPrefix, List.isPrefixOf_iff_prefix, or_assoc]

theorem filter_eq_nil_of_no_marker (marker : Str) (parts : List Str)
    (h : ∀ t ∈ parts, ¬ marker <+: t) :
    parts.filter (fun t => HasPrefix t marker) = [] := by
  rw [List.filter_eq_nil_iff]
  intro t ht
  simpa [HasPrefix, List.isPrefixOf_iff_prefix] using h t ht

theorem run_log (git : Git) (cmd : Cmd) (w : World) : (run git cmd w).2.log = w.log ++ [cmd] := by
  unfold run; split_ifs <;> rfl

/-- The revision query fails in a folder that does not exist. -/
theorem commit_fails_of_notExist (git : Git) (folder : Str) (w : World)
    (hne : folder ≠ []) (h : w.notExist folder = true) :
    (commit git folder w).1.2 = some "chdir: no such file or directory".toList := by
  simp [commit, run, hne, h]


/-! ## The claims -/

/-- C1, as stated, fails: the URL `-COLON:` contains none of the three markers, its
folder name is `-COLON-COLON-`, and decoding that gives `:COLON-`, not the URL. -/
theorem C1_counterexample :
    (¬ "-COLON-".toList <:+: "-COLON:".toList ∧ ¬ "-SLASH-".toList <:+: "-COLON:".toList ∧
      ¬ "-AT-".toList <:+: "-COLON:".toList) ∧
    FromURL "-COLON:".toList = "-COLON-COLON-".toList ∧
    ToURL (FromURL "-COLON:".toList) = ":COLON-".toList ∧
    ToURL (FromURL "-COLON:".toList) ≠ "-COLON:".toList ∧
    (NewClonedGit gitAlwaysOk emptyWorld "/h".toList (FromURL "-COLON:".toList)).1.URL ≠
      "-COLON:".toList := by
  decide

/-- C1, amended: for every URL `u` that contains none of the words `COLON`, `SLASH`,
`AT` (it may contain `:`, `/`, `@` and `-` freely), `ToURL (FromURL u) = u`, and the
project rehydrated by `NewClonedGit` from the folder name `FromURL u` carries URL `u`. -/
theorem C1_round_trip (u : Str) (h : NoMarkerWord u) :
    ToURL (FromURL u) = u ∧
    ∀ (git : Git) (w : World) (home : Str), (NewClonedGit git w home (FromURL u)).1.URL = u :=
  ⟨ToURL_FromURL_of_noMarkerWord u h, fun _ _ _ => ToURL_FromURL_of_noMarkerWord u h⟩

/-- C1, at the URL `git@github.com:caarlos0/ports`. -/
theorem C1_round_trip_witness :
    NoMarkerWord "git@github.com:caarlos0/ports".toList ∧
    ToURL (FromURL "git@github.com:caarlos0/ports".toList) =
      "git@github.com:caarlos0/ports".toList :=
  ⟨by decide, (C1_round_trip "git@github.com:caarlos0/ports".toList (by decide)).1⟩

/-- C2, as stated, fails: the different URLs `:` and `-COLON-` have the same folder
name, and the lines `x:y` and `x-COLON-y` give projects with different URLs and the
same local folder under the same parent directory. -/
theorem C2_counterexample :
    ":".toList ≠ "-COLON-".toList ∧ FromURL ":".toList = FromURL "-COLON-".toList ∧
    (NewGit "/h".toList "x:y".toList).map (fun g => g.URL) ≠
      (NewGit "/h".toList "x-COLON-y".toList).map (fun g => g.URL) ∧
    (NewGit "/h".toList "x:y".toList).map (fun g => g.folder) =
      (NewGit "/h".toList "x-COLON-y".toList).map (fun g => g.folder) := by
  decide

/-- C2, amended: two different URLs that contain none of the words `COLON`, `SLASH`,
`AT` have different folder names, and two projects built by `NewGit` under the same
parent directory with these URLs have different local folders. -/
theorem C2_collision_free (u1 u2 : Str) (h1 : NoMarkerWord u1) (h2 : NoMarkerWord u2)
    (hne : u1 ≠ u2) :
    FromURL u1 ≠ FromURL u2 ∧
    ∀ (cwd l1 l2 : Str) (g1 g2 : gitProject), NewGit cwd l1 = some g1 →
      NewGit cwd l2 = some g2 → g1.URL = u1 → g2.URL = u2 → g1.folder ≠ g2.folder := by
  have hinj : FromURL u1 ≠ FromURL u2 := by
    intro h
    apply hne
    rw [← ToURL_FromURL_of_noMarkerWord u1 h1, ← ToURL_FromURL_of_noMarkerWord u2 h2, h]
  refine ⟨hinj, ?_⟩
  intro cwd l1 l2 g1 g2 e1 e2 hu1 hu2 hf
  rw [NewGit_eq] at e1 e2
  cases e1; cases e2
  simp only at hu1 hu2 hf
  rw [Join_plain _ _ (plain_folderName _), Join_plain _ _ (plain_folderName _)] at hf
  have := writeOut_last_inj _ _ _ _ hf
  rw [hu1, hu2] at this
  exact hinj this

/-- C2, at the URLs of `caarlos0/ports` and `caarlos0/jvm`. -/
theorem C2_collision_free_witness :
    NoMarkerWord "https://github.com/caarlos0/ports".toList ∧
    NoMarkerWord "https://github.com/caarlos0/jvm".toList ∧
    FromURL "https://github.com/caarlos0/ports".toList ≠
      FromURL "https://github.com/caarlos0/jvm".toList :=
  ⟨by decide, by decide,
    (C2_collision_free "https://github.com/caarlos0/ports".toList
      "https://github.com/caarlos0/jvm".toList (by decide) (by decide) (by decide)).1⟩

/-- C3: for every `cwd` and `line`, `NewGit` returns a project; with `r` the part of the
line before its first space (the whole line if it has none), its URL is `r` when `r` starts with one of `http://`,
`https://`, `git://`, `ssh://`, `git@gitlab.com:`, `git@github.com:`, and
`https://github.com/` followed by `r` otherwise; its local folder is
`filepath.Join(cwd, FromURL(URL))`. -/
theorem C3_repo_resolution (cwd line : Str) :
    (' ' ∉ firstToken line ∧
      (line = firstToken line ∨ ∃ rest, line = firstToken line ++ ' ' :: rest)) ∧
    ∃ g, NewGit cwd line = some g ∧
      (RecognisedPrefix (firstToken line) → g.URL = firstToken line) ∧
      (¬ RecognisedPrefix (firstToken line) →
        g.URL = "https://github.com/".toList ++ firstToken line) ∧
      g.folder = Join [cwd, FromURL g.URL] := by
  refine ⟨firstToken_spec line, _, NewGit_eq cwd line, ?_, ?_, rfl⟩
  · intro h
    show repoURL (firstToken line) = _
    rw [repoURL, if_pos ((isFullURL_iff _).mpr h)]
  · intro h
    have : ¬ isFullURL (firstToken line) = true := fun hh => h ((isFullURL_iff _).mp hh)
    show repoURL (firstToken line) = _
    rw [repoURL, if_neg this]

/-- C3, on the lines of the tests: `caarlos0/ports` is expanded, and
`git@gitlab.com:caarlos0/test.git branch:main` keeps its first token. -/
theorem C3_repo_resolution_witness :
    (∃ g, NewGit "/h".toList "caarlos0/ports".toList = some g ∧
      g.URL = "https://github.com/caarlos0/ports".toList ∧
      g.folder = Join ["/h".toList, FromURL g.URL]) ∧
    (∃ g, NewGit "/h".toList "git@gitlab.com:caarlos0/test.git branch:main".toList = some g ∧
      g.URL = "git@gitlab.com:caarlos0/test.git".toList ∧
      g.folder = Join ["/h".toList, FromURL g.URL]) := by
  constructor
  · obtain ⟨_, g, hg, _, h2, h3⟩ := C3_repo_resolution "/h".toList "caarlos0/ports".toList
    exact ⟨g, hg, h2 (by decide), h3⟩
  · obtain ⟨_, g, hg, h1, _, h3⟩ :=
      C3_repo_resolution "/h".toList "git@gitlab.com:caarlos0/test.git branch:main".toList
    exact ⟨g, hg, h1 (by decide), h3⟩

/-- C4, as stated, fails twice.  On the line `branch:x` no token after the first starts
with `branch:`, yet the branch is `x`.  On the line `r branch:abranch:b` the last token
starting with `branch:` is `branch:abranch:b`, and the branch is `ab`, not that token
without its leading prefix. -/
theorem C4_counterexample :
    ((Split "branch:x".toList " ".toList).tail.filter (fun t => HasPrefix t branchMarker) = [] ∧
      (NewGit "/h".toList "branch:x".toList).map (fun g => g.Version) = some "x".toList) ∧
    (((Split "r branch:abranch:b".toList " ".toList).tail.filter
        (fun t => HasPrefix t branchMarker)).getLast? = some "branch:abranch:b".toList ∧
      (NewGit "/h".toList "r branch:abranch:b".toList).map (fun g => g.Version) =
        some "ab".toList ∧
      (NewGit "/h".toList "r branch:abranch:b".toList).map (fun g => g.Version) ≠
        some "abranch:b".toList) := by
  decide

/-- C4, amended: for every `cwd` and `line`, the branch (`Version`) of the project is
the empty string when no token of the line, the first one included, starts with
`branch:`; and when the last token starting with `branch:` is `branch:` followed by a
rest that contains no further `branch:`, the branch is exactly that rest.  The last
occurrence wins. -/
theorem C4_branch (cwd line : Str) :
    ∃ g, NewGit cwd line = some g ∧
      ((∀ t ∈ Split line " ".toList, ¬ branchMarker <+: t) → g.Version = []) ∧
      (∀ b, ((Split line " ".toList).filter (fun t => HasPrefix t branchMarker)).getLast?
          = some (branchMarker ++ b) → ¬ branchMarker <:+: b → g.Version = b) := by
  refine ⟨_, NewGit_eq cwd line, ?_, ?_⟩
  · intro h
    simp only [scan_version, filter_eq_nil_of_no_marker _ _ h, List.getLast?_nil]
  · intro b hb hnb
    simp only [scan_version, hb]
    exact ReplaceAll_marker branchMarker b (by decide) hnb

/-- C4, on the lines `caarlos0/jvm branch:gh-pages branch:main`, where the last
occurrence wins, and `caarlos0/ports`, where no token carries a branch. -/
theorem C4_branch_witness :
    (∃ g, NewGit "/h".toList "caarlos0/jvm branch:gh-pages branch:main".toList = some g ∧
      g.Version = "main".toList) ∧
    (∃ g, NewGit "/h".toList "caarlos0/ports".toList = some g ∧ g.Version = []) := by
  constructor
  · obtain ⟨g, hg, _, h2⟩ :=
      C4_branch "/h".toList "caarlos0/jvm branch:gh-pages branch:main".toList
    exact ⟨g, hg, h2 "main".toList (by decide) (by decide)⟩
  · obtain ⟨g, hg, h1, _⟩ := C4_branch "/h".toList "caarlos0/ports".toList
    exact ⟨g, hg, h1 (by decide)⟩

/-- C5, as stated, fails: on the line `a/b path:xpath:y` the last token starting with
`path:` carries the sub-path `xpath:y`, a single plain component, and `Path()` is the
local folder followed by `/xy`: it neither is the folder followed by `/xpath:y` nor
ends with `xpath:y`. -/
theorem C5_counterexample :
    ((Split "a/b path:xpath:y".toList " ".toList).filter
        (fun t => HasPrefix t pathMarker)).getLast? = some (pathMarker ++ "xpath:y".toList) ∧
    PlainPath "xpath:y".toList ∧
    (NewGit "/h".toList "a/b path:xpath:y".toList).map (fun g => g.folder) =
      some "/h/https-COLON--SLASH--SLASH-github.com-SLASH-a-SLASH-b".toList ∧
    (NewGit "/h".toList "a/b path:xpath:y".toList).map (fun g => g.Path) =
      some "/h/https-COLON--SLASH--SLASH-github.com-SLASH-a-SLASH-b/xy".toList ∧
    (NewGit "/h".toList "a/b path:xpath:y".toList).map
      (fun g => decide ("xpath:y".toList <:+ g.Path)) = some false := by
  decide

/-- C5, amended: for every `cwd` and `line`, if no token of the line starts with
`path:` then `Path()` equals the local folder `filepath.Join(cwd, FromURL(URL))`; if the
last token starting with `path:` is `path:` followed by a sub-path `p` that is a
non-empty relative path of plain components and contains no further `path:`, then
`Path()` equals the local folder followed by `/` and `p`, so `Path()` ends with `p`.
`Path` is a function of the project alone: no file system is involved. -/
theorem C5_path_composition (cwd line : Str) :
    ∃ g, NewGit cwd line = some g ∧ g.folder = Join [cwd, FromURL g.URL] ∧
      ((∀ t ∈ Split line " ".toList, ¬ pathMarker <+: t) → g.Path = g.folder) ∧
      (∀ p, ((Split line " ".toList).filter (fun t => HasPrefix t pathMarker)).getLast?
          = some (pathMarker ++ p) → PlainPath p → ¬ pathMarker <:+: p →
        g.Path = g.folder ++ '/' :: p ∧ p <:+ g.Path) := by
  have hfold : Join [cwd, FromURL (repoURL (firstToken line))] =
      writeOut (isRooted cwd) (cleanElems cwd ++ [FromURL (repoURL (firstToken line))]) :=
    Join_plain _ _ (plain_folderName _)
  have hout : CleanOut (isRooted cwd)
      (cleanElems cwd ++ [FromURL (repoURL (firstToken line))]) :=
    cleanOut_append_plain _ _ _ (cleanOut_cleanElems cwd) (plain_folderName _)
  refine ⟨_, NewGit_eq cwd line, rfl, ?_, ?_⟩
  · intro h
    simp only [gitProject.Path, scan_inner, filter_eq_nil_of_no_marker _ _ h,
      List.getLast?_nil]
    rw [hfold]
    exact Join_empty _ _ hout (by simp)
  · intro p hp hplain hnp
    have hi : ((Split line " ".toList).foldl scanPart ([], [])).2 = p := by
      rw [scan_inner, hp]
      exact ReplaceAll_marker pathMarker p (by decide) hnp
    have hpath : Join [Join [cwd, FromURL (repoURL (firstToken line))],
        ((Split line " ".toList).foldl scanPart ([], [])).2] =
        Join [cwd, FromURL (repoURL (firstToken line))] ++ '/' :: p := by
      rw [hi, hfold]
      exact Join_plainPath _ _ hout (by simp) p hplain
    refine ⟨hpath, ?_⟩
    show p <:+ Join [Join [cwd, FromURL (repoURL (firstToken line))],
        ((Split line " ".toList).foldl scanPart ([], [])).2]
    rw [hpath]
    exact ⟨Join [cwd, FromURL (repoURL (firstToken line))] ++ ['/'], by simp⟩

/-- C5, on the lines of the tests: `ohmyzsh/ohmyzsh path:plugins/aws` has a `Path()`
that is the folder followed by `/plugins/aws`, and `caarlos0/ports` has its folder as
`Path()`. -/
theorem C5_path_composition_witness :
    (∃ g, NewGit "/h".toList "ohmyzsh/ohmyzsh path:plugins/aws".toList = some g ∧
      g.Path = g.folder ++ '/' :: "plugins/aws".toList ∧ "plugins/aws".toList <:+ g.Path) ∧
    (∃ g, NewGit "/h".toList "caarlos0/ports".toList = some g ∧ g.Path = g.folder) := by
  constructor
  · obtain ⟨g, hg, _, _, h2⟩ :=
      C5_path_composition "/h".toList "ohmyzsh/ohmyzsh path:plugins/aws".toList
    exact ⟨g, hg, h2 "plugins/aws".toList (by decide) (by decide) (by decide)⟩
  · obtain ⟨g, hg, _, h1, _⟩ := C5_path_composition "/h".toList "caarlos0/ports".toList
    exact ⟨g, hg, h1 (by decide)⟩

/-- C6: for every `cwd`, every repo reference `r` without spaces and every two branch
names `b1`, `b2` without spaces, the projects of `r branch:b1` and `r branch:b2` have
the same URL, the same local folder and the same `Path()`. -/
theorem C6_folder_ignores_branch (cwd r b1 b2 : Str) (hr : ' ' ∉ r) (h1 : ' ' ∉ b1)
    (h2 : ' ' ∉ b2) :
    ∃ g1 g2, NewGit cwd (r ++ " branch:".toList ++ b1) = some g1 ∧
      NewGit cwd (r ++ " branch:".toList ++ b2) = some g2 ∧
      g1.URL = g2.URL ∧ g1.folder = g2.folder ∧ g1.Path = g2.Path := by
  have hsplit : ∀ b, ' ' ∉ b → Split (r ++ " branch:".toList ++ b) " ".toList =
      [r, branchMarker ++ b] := by
    intro b hb
    have e : r ++ " branch:".toList ++ b = r ++ ' ' :: (branchMarker ++ b) := by
      simp [branchMarker]
    have hm : ' ' ∉ branchMarker ++ b := by
      intro hh
      rcases List.mem_append.mp hh with h | h
      · revert h; decide
      · exact hb h
    rw [e, show " ".toList = [' '] from rfl, Split_single, splitLoop_append _ _ _ hr,
      splitLoop_of_not_mem _ _ hm]
  have hproj : ∀ b, ' ' ∉ b → NewGit cwd (r ++ " branch:".toList ++ b) = some
      { URL := repoURL r
        Version := (scanPart (scanPart ([], []) r) (branchMarker ++ b)).1
        folder := Join [cwd, FromURL (repoURL r)]
        inner := (scanPart ([], []) r).2 } := by
    intro b hb
    have hnp : HasPrefix (branchMarker ++ b) pathMarker = false := by
      simp [HasPrefix, branchMarker, pathMarker, List.isPrefixOf]
    simp only [NewGit, hsplit b hb, List.head?_cons, List.foldl_cons, List.foldl_nil]
    simp [scanPart, hnp]
  exact ⟨_, _, hproj b1 h1, hproj b2 h2, rfl, rfl, rfl⟩

/-- C6, at `caarlos0/jvm` with the branches `gh-pages` and `master`. -/
theorem C6_folder_ignores_branch_witness :
    ∃ g1 g2, NewGit "/h".toList ("caarlos0/jvm".toList ++ " branch:".toList ++ "gh-pages".toList)
        = some g1 ∧
      NewGit "/h".toList ("caarlos0/jvm".toList ++ " branch:".toList ++ "master".toList)
        = some g2 ∧
      g1.URL = g2.URL ∧ g1.folder = g2.folder ∧ g1.Path = g2.Path :=
  C6_folder_ignores_branch "/h".toList "caarlos0/jvm".toList "gh-pages".toList "master".toList
    (by decide) (by decide) (by decide)


theorem cloneArgs_head (g : gitProject) : (cloneArgs g).head? = some "clone".toList := by
  unfold cloneArgs; split_ifs <;> rfl

theorem cloneArgs_getLast (g : gitProject) : (cloneArgs g).getLast? = some g.folder := by
  unfold cloneArgs; split_ifs <;> simp

theorem gitAlwaysOk_creates : CloneCreatesFolder gitAlwaysOk := by
  intro cmd fs target hh hl _
  simp [gitAlwaysOk, hh, hl]

theorem run_here (git : Git) (args : List Str) (w : World) :
    run git { args := args, dir := [] } w =
      ((git { args := args, dir := [] } w.fs).1,
       { fs := (git { args := args, dir := [] } w.fs).2,
         log := w.log ++ [{ args := args, dir := [] }] }) := by
  simp [run]

/-- What `Download` does when the folder does not exist: it runs the clone command in
the current directory and returns its error. -/
theorem Download_absent (git : Git) (g : gitProject) (w : World)
    (h : w.notExist g.folder = true) :
    g.Download git w =
      ((git { args := cloneArgs g, dir := [] } w.fs).1.err,
       { fs := (git { args := cloneArgs g, dir := [] } w.fs).2,
         log := w.log ++ [{ args := cloneArgs g, dir := [] }] }) := by
  simp only [gitProject.Download, h, if_true, run_here]
  cases (git { args := cloneArgs g, dir := [] } w.fs).1.err <;> rfl

theorem Download_present (git : Git) (g : gitProject) (w : World)
    (h : w.notExist g.folder = false) : g.Download git w = (none, w) := by
  simp [gitProject.Download, h]

/-- C7, as stated, fails: a `git` that always fails is a model in which every successful
clone creates its target, and on the fresh project of `caarlos0/not-a-real-repo` the
first `Download` returns the error of the clone. -/
theorem C7_counterexample :
    CloneCreatesFolder gitAlwaysFails ∧
    (NewGit "/h".toList "caarlos0/not-a-real-repo".toList).map
      (fun g => (emptyWorld.notExist g.folder, (g.Download gitAlwaysFails emptyWorld).1)) =
      some (true, some "exit status 128".toList) := by
  refine ⟨?_, by decide⟩
  intro cmd fs target _ _ h
  simp [gitAlwaysFails] at h

/-- C7, amended: in a model of `git` in which a successful clone creates the target
folder, for a fresh project (its folder does not exist) whose clone succeeds, `Download`
called twice in sequence returns nil both times and the two calls together run exactly
one command, the clone; and in general, for every `git`, project and world, whenever the
folder of the project already exists `Download` returns nil and leaves the world as it
is, running no command. -/
theorem C7_download_idempotent (git : Git) (g : gitProject) :
    (∀ w : World, CloneCreatesFolder git → w.notExist g.folder = true →
      (git { args := cloneArgs g, dir := [] } w.fs).1.err = none →
      (g.Download git w).1 = none ∧
      (g.Download git (g.Download git w).2).1 = none ∧
      (g.Download git (g.Download git w).2).2.log =
        w.log ++ [{ args := cloneArgs g, dir := [] }]) ∧
    (∀ w2 : World, w2.notExist g.folder = false → g.Download git w2 = (none, w2)) := by
  refine ⟨?_, fun w2 h2 => Download_present git g w2 h2⟩
  intro w hmodel hfresh hclone
  have hfirst := Download_absent git g w hfresh
  rw [hclone] at hfirst
  have hthere : (g.Download git w).2.notExist g.folder = false := by
    rw [hfirst]
    show IsNotExist ((git { args := cloneArgs g, dir := [] } w.fs).2 g.folder) = false
    rw [hmodel _ _ _ (cloneArgs_head g) (cloneArgs_getLast g) hclone]
    rfl
  rw [Download_present git g _ hthere]
  exact ⟨by rw [hfirst], by rw [hfirst], by rw [hfirst]⟩

/-- C7, at the project of `caarlos0/ports` in a world without folders, with a `git` that
always succeeds: two calls, one clone; and in the world the first call leaves, where the
folder exists, a further call changes nothing. -/
theorem C7_download_idempotent_witness :
    ∃ g, NewGit "/h".toList "caarlos0/ports".toList = some g ∧
      (g.Download gitAlwaysOk emptyWorld).1 = none ∧
      (g.Download gitAlwaysOk (g.Download gitAlwaysOk emptyWorld).2).1 = none ∧
      (g.Download gitAlwaysOk (g.Download gitAlwaysOk emptyWorld).2).2.log =
        [{ args := cloneArgs g, dir := [] }] := by
  obtain ⟨g, hg, _⟩ := NewGit_isSome "/h".toList "caarlos0/ports".toList
  obtain ⟨h1, h2, h3⟩ :=
    (C7_download_idempotent gitAlwaysOk g).1 emptyWorld gitAlwaysOk_creates rfl rfl
  exact ⟨g, hg, h1, h2, h3⟩

/-- When the revision query fails, `Update` returns its error after running that query
and nothing else. -/
theorem Update_of_commit_fails (git : Git) (g : gitProject) (w : World)
    (hfail : (commit git g.folder w).1.2 ≠ none) :
    (g.Update git w).1 = (commit git g.folder w).1.2 ∧
    (g.Update git w).1 ≠ none ∧
    (g.Update git w).2.log = w.log ++ [revParseCmd g.folder] ∧
    ∀ c ∈ (g.Update git w).2.log, c.args = pullArgs g → c ∈ w.log := by
  have hlog : (commit git g.folder w).2.log = w.log ++ [revParseCmd g.folder] := by
    simp only [commit, run_log]; rfl
  cases hc : (commit git g.folder w).1.2 with
  | none => exact absurd hc hfail
  | some e =>
    have hu : g.Update git w = (some e, (commit git g.folder w).2) := by
      simp only [gitProject.Update, hc]
    rw [hu]
    refine ⟨rfl, by simp, hlog, ?_⟩
    intro c hcmem hargs
    rw [hlog] at hcmem
    rcases List.mem_append.mp hcmem with h | h
    · exact h
    · exfalso
      rw [List.mem_singleton.mp h] at hargs
      revert hargs
      unfold pullArgs revParseCmd
      split_ifs <;> simp

/-- C8: for every project whose folder was never materialized (the folder path does not
exist, so the revision query run in that folder fails), and more generally for every
project whose revision query fails, `Update` returns an error, the error of the query,
and the only command it runs is that query: the pull command is never run. -/
theorem C8_update_precondition (git : Git) (g : gitProject) (w : World) :
    (g.folder ≠ [] → w.notExist g.folder = true → (commit git g.folder w).1.2 ≠ none) ∧
    ((commit git g.folder w).1.2 ≠ none →
      (g.Update git w).1 = (commit git g.folder w).1.2 ∧
      (g.Update git w).1 ≠ none ∧
      (g.Update git w).2.log = w.log ++ [revParseCmd g.folder] ∧
      ∀ c ∈ (g.Update git w).2.log, c.args = pullArgs g → c ∈ w.log) := by
  refine ⟨?_, Update_of_commit_fails git g w⟩
  intro hne h
  rw [commit_fails_of_notExist git g.folder w hne h]
  simp

/-- C8, at the project of `caarlos0/ports` in a world without folders, where even a
`git` that always succeeds cannot run the query: `Update` fails and only the query was
started. -/
theorem C8_update_precondition_witness :
    ∃ g, NewGit "/h".toList "caarlos0/ports".toList = some g ∧
      emptyWorld.notExist g.folder = true ∧
      (g.Update gitAlwaysOk emptyWorld).1 ≠ none ∧
      (g.Update gitAlwaysOk emptyWorld).2.log = [revParseCmd g.folder] := by
  obtain ⟨g, hg, _⟩ := NewGit_isSome "/h".toList "caarlos0/ports".toList
  obtain ⟨h1, h2⟩ := C8_update_precondition gitAlwaysOk g emptyWorld
  have hne : g.folder ≠ [] := by
    rw [NewGit_eq] at hg
    cases hg
    decide
  have hq := h2 (h1 hne rfl)
  exact ⟨g, hg, rfl, hq.2.1, hq.2.2.1⟩

/-- C10, as stated, fails: on the folder name `-SLASH-COLON-`, `ToURL` gives `-SLASH:`
while replacing `-AT-`, then `-SLASH-`, then `-COLON-` gives `/COLON-`. -/
theorem C10_counterexample :
    ToURL "-SLASH-COLON-".toList = "-SLASH:".toList ∧
    decodeReverse "-SLASH-COLON-".toList = "/COLON-".toList ∧
    ToURL "-SLASH-COLON-".toList ≠ decodeReverse "-SLASH-COLON-".toList := by
  decide

/-- C10, amended: `FromURL` replaces `:` then `/` then `@`, and for every folder name
`f`, `ToURL f` is the result of replacing every `-COLON-` by `:`, then every `-SLASH-`
by `/`, then every `-AT-` by `@`: the order of the table, as in `FromURL`.  On the
folder name of every URL `u` without the words `COLON`, `SLASH`, `AT` this agrees with
the reverse order, and both give `u`. -/
theorem C10_decode_order :
    (∀ url, FromURL url =
      Replace (Replace (Replace url ":".toList "-COLON-".toList) "/".toList "-SLASH-".toList)
        "@".toList "-AT-".toList) ∧
    (∀ f, ToURL f =
      Replace (Replace (Replace f "-COLON-".toList ":".toList) "-SLASH-".toList "/".toList)
        "-AT-".toList "@".toList) ∧
    (∀ u, NoMarkerWord u →
      ToURL (FromURL u) = decodeReverse (FromURL u) ∧ decodeReverse (FromURL u) = u) := by
  refine ⟨fun _ => rfl, fun _ => rfl, ?_⟩
  intro u h
  have hrev : decodeReverse (FromURL u) = u := by
    rw [decodeReverse, FromURL_eq_escape, decode_at _ _ _ h.2.2, decode_slash _ _ _ h.2.1,
      decode_colon _ _ _ h.1, escape_none]
  exact ⟨by rw [hrev, ToURL_FromURL_of_noMarkerWord u h], hrev⟩

/-- C10, at the URL `ssh://git@github.com/caarlos0/ports.git`: both orders give the URL
back. -/
theorem C10_decode_order_witness :
    ToURL (FromURL "ssh://git@github.com/caarlos0/ports.git".toList) =
      decodeReverse (FromURL "ssh://git@github.com/caarlos0/ports.git".toList) ∧
    decodeReverse (FromURL "ssh://git@github.com/caarlos0/ports.git".toList) =
      "ssh://git@github.com/caarlos0/ports.git".toList :=
  C10_decode_order.2.2 "ssh://git@github.com/caarlos0/ports.git".toList (by decide)

/-! ## The claims on rehydration, the parser and `Download` -/

theorem scanPart_other (acc : Str × Str) (t : Str) (hb : ¬ branchMarker <+: t)
    (hp : ¬ pathMarker <+: t) : scanPart acc t = acc := by
  have h1 : HasPrefix t branchMarker = false := by
    rw [HasPrefix]
    cases hh : branchMarker.isPrefixOf t with
    | false => rfl
    | true => exact absurd (List.isPrefixOf_iff_prefix.mp hh) hb
  have h2 : HasPrefix t pathMarker = false := by
    rw [HasPrefix]
    cases hh : pathMarker.isPrefixOf t with
    | false => rfl
    | true => exact absurd (List.isPrefixOf_iff_prefix.mp hh) hp
  simp [scanPart, h1, h2]

theorem Split_space_append (a b : Str) :
    Split (a ++ ' ' :: b) " ".toList = Split a " ".toList ++ Split b " ".toList := by
  rw [show " ".toList = [' '] from rfl, Split_single, Split_single, Split_single,
    splitLoop_append_sep]

theorem Split_space_ne_nil (line : Str) : Split line " ".toList ≠ [] := by
  rw [show " ".toList = [' '] from rfl, Split_single]
  exact splitLoop_ne_nil _ _ _

/-- The project of a line depends on the first part and on the scan of all parts. -/
theorem NewGit_congr (cwd l1 l2 : Str)
    (hh : (Split l1 " ".toList).head? = (Split l2 " ".toList).head?)
    (hf : (Split l1 " ".toList).foldl scanPart ([], []) =
      (Split l2 " ".toList).foldl scanPart ([], [])) :
    NewGit cwd l1 = NewGit cwd l2 := by
  simp only [NewGit, hh, hf]

theorem head?_append_of_ne_nil (ps qs : List Str) (h : ps ≠ []) :
    (ps ++ qs).head? = ps.head? := by
  cases ps with
  | nil => exact absurd rfl h
  | cons p ps => rfl

/-- C11: for every `home` and every line none of whose tokens starts with `path:`, with
`u` the URL of the project `NewGit` builds, the project `NewClonedGit` rehydrates from
the folder name `FromURL u` has the same local folder and the same `Path()`, whatever
the branch query returns; a failing branch query leaves the branch empty. -/
theorem C11_rehydration_same_path (git : Git) (w : World) (home line : Str)
    (hnp : ∀ t ∈ Split line " ".toList, ¬ pathMarker <+: t) :
    ∃ g, NewGit home line = some g ∧
      (NewClonedGit git w home (FromURL g.URL)).1.folder = g.folder ∧
      (NewClonedGit git w home (FromURL g.URL)).1.Path = g.Path ∧
      ((branch git (Join [home, FromURL g.URL]) w).1.2 ≠ none →
        (NewClonedGit git w home (FromURL g.URL)).1.Version = []) := by
  refine ⟨_, NewGit_eq home line, rfl, ?_, ?_⟩
  · have hi : ((Split line " ".toList).foldl scanPart ([], [])).2 = [] := by
      simp only [scan_inner, filter_eq_nil_of_no_marker _ _ hnp, List.getLast?_nil]
    simp only [gitProject.Path, NewClonedGit, hi]
  · intro hf
    simp only [NewClonedGit]
    cases hb : (branch git (Join [home, FromURL (repoURL (firstToken line))]) w).1.2 with
    | none => exact absurd hb hf
    | some e => rfl

/-- C11, at the line `caarlos0/jvm branch:gh-pages` of the tests, in a world without
folders where the branch query cannot run. -/
theorem C11_rehydration_same_path_witness :
    ∃ g, NewGit "/h".toList "caarlos0/jvm branch:gh-pages".toList = some g ∧
      (NewClonedGit gitAlwaysOk emptyWorld "/h".toList (FromURL g.URL)).1.Path = g.Path ∧
      (NewClonedGit gitAlwaysOk emptyWorld "/h".toList (FromURL g.URL)).1.Version = [] := by
  obtain ⟨g, hg, _, h2, h3⟩ := C11_rehydration_same_path gitAlwaysOk emptyWorld "/h".toList
    "caarlos0/jvm branch:gh-pages".toList (by decide)
  refine ⟨g, hg, h2, h3 ?_⟩
  rw [NewGit_eq] at hg
  cases hg
  decide

/-- C14: for every `cwd`, every line `l` and every token `t` that contains no space and
starts with neither `branch:` nor `path:`, the line `l` followed by a space and `t`
gives the same project (URL, branch, folder and inner path) as `l`. -/
theorem C14_unrecognized_dropped (cwd l t : Str) (ht : ' ' ∉ t)
    (hb : ¬ branchMarker <+: t) (hp : ¬ pathMarker <+: t) :
    NewGit cwd (l ++ " ".toList ++ t) = NewGit cwd l := by
  have hsplit : Split (l ++ " ".toList ++ t) " ".toList = Split l " ".toList ++ [t] := by
    have e : l ++ " ".toList ++ t = l ++ ' ' :: t := by simp
    rw [e, Split_space_append]
    congr 1
    rw [show " ".toList = [' '] from rfl, Split_single]
    exact splitLoop_of_not_mem _ _ ht
  apply NewGit_congr
  · rw [hsplit, head?_append_of_ne_nil _ _ (Split_space_ne_nil l)]
  · rw [hsplit, List.foldl_append]
    simp only [List.foldl_cons, List.foldl_nil, scanPart_other _ t hb hp]

/-- C14, at the line `caarlos0/jvm branch:gh-pages` followed by the token `kind:zsh`. -/
theorem C14_unrecognized_dropped_witness :
    NewGit "/h".toList ("caarlos0/jvm branch:gh-pages".toList ++ " ".toList ++ "kind:zsh".toList)
      = NewGit "/h".toList "caarlos0/jvm branch:gh-pages".toList :=
  C14_unrecognized_dropped "/h".toList "caarlos0/jvm branch:gh-pages".toList "kind:zsh".toList
    (by decide) (by decide) (by decide)

theorem firstToken_spaces (n : Nat) : firstToken (List.replicate n ' ') = [] := by
  cases n with
  | zero => rfl
  | succ n => simp [firstToken, List.replicate_succ]

/-- C15: for every `cwd` and every `line`, the split of the line has a first part, so
`parts[0]` is in range and `NewGit` returns a project; for the empty line, and for every
line made only of spaces, the URL is `https://github.com/`. -/
theorem C15_parser_total (cwd line : Str) :
    Split line " ".toList ≠ [] ∧
    (∃ g, NewGit cwd line = some g) ∧
    (∃ g, NewGit cwd [] = some g ∧ g.URL = "https://github.com/".toList) ∧
    (∀ n, ∃ g, NewGit cwd (List.replicate n ' ') = some g ∧
      g.URL = "https://github.com/".toList) := by
  have hsp : ∀ n, ∃ g, NewGit cwd (List.replicate n ' ') = some g ∧
      g.URL = "https://github.com/".toList := by
    intro n
    refine ⟨_, NewGit_eq cwd _, ?_⟩
    simp only [firstToken_spaces]
    decide
  exact ⟨Split_space_ne_nil line, ⟨_, NewGit_eq cwd line⟩, hsp 0, hsp⟩

/-- C16: for every string `url`, the folder name `FromURL url` contains none of the
characters `:`, `/` and `@`. -/
theorem C16_folder_name_safe (url : Str) :
    ':' ∉ FromURL url ∧ '/' ∉ FromURL url ∧ '@' ∉ FromURL url :=
  FromURL_no_special url

/-- C17: whenever `Download` runs git, that is whenever the folder does not exist, it
runs exactly one command; its arguments are `clone`, `--recursive`, `--depth`, `1`,
followed by `-b` and `Version` exactly when `Version` is non-empty, followed by the URL
and the folder, which are always the last two arguments. -/
theorem C17_clone_arguments (git : Git) (g : gitProject) (w : World)
    (h : w.notExist g.folder = true) :
    ∃ args, (g.Download git w).2.log = w.log ++ [{ args := args, dir := [] }] ∧
      (g.Version = [] → args =
        ["clone".toList, "--recursive".toList, "--depth".toList, "1".toList,
          g.URL, g.folder]) ∧
      (g.Version ≠ [] → args =
        ["clone".toList, "--recursive".toList, "--depth".toList, "1".toList,
          "-b".toList, g.Version, g.URL, g.folder]) ∧
      (∃ front, args = front ++ [g.URL, g.folder]) := by
  refine ⟨cloneArgs g, by rw [Download_absent git g w h], ?_, ?_, ?_⟩
  · intro hv
    simp [cloneArgs, hv]
  · intro hv
    simp [cloneArgs, hv]
  · unfold cloneArgs
    exact ⟨_, rfl⟩

/-- C17, at the project of `caarlos0/jvm branch:gh-pages` in a world without folders:
the clone command carries `-b gh-pages`. -/
theorem C17_clone_arguments_witness :
    ∃ g, NewGit "/h".toList "caarlos0/jvm branch:gh-pages".toList = some g ∧
      (g.Download gitAlwaysOk emptyWorld).2.log =
        [{ args := ["clone".toList, "--recursive".toList, "--depth".toList, "1".toList,
            "-b".toList, "gh-pages".toList, "https://github.com/caarlos0/jvm".toList,
            "/h/https-COLON--SLASH--SLASH-github.com-SLASH-caarlos0-SLASH-jvm".toList],
           dir := [] }] := by
  obtain ⟨g, hg, _⟩ := NewGit_isSome "/h".toList "caarlos0/jvm branch:gh-pages".toList
  obtain ⟨args, h1, _, h3, _⟩ := C17_clone_arguments gitAlwaysOk g emptyWorld rfl
  refine ⟨g, hg, ?_⟩
  rw [NewGit_eq] at hg
  cases hg
  rw [h1, h3 (by decide)]
  decide

/-- C18, as stated, fails: an error is swallowed.  In a world where `os.Stat` of the
folder fails with an error that is not a not-exist error, `Download` on the project of
`caarlos0/ports` returns nil and runs no command: the error of `os.Stat` is dropped. -/
theorem C18_counterexample :
    (NewGit "/h".toList "caarlos0/ports".toList).map
      (fun g => (blockedWorld.fs g.folder, (g.Download gitAlwaysOk blockedWorld).1,
        (g.Download gitAlwaysOk blockedWorld).2.log)) =
      some (some (StatError.other "not a directory".toList), none, []) := by
  decide

/-- C18, amended: `Download` returns an error exactly when `os.Stat` reports that the
folder of the project does not exist and the clone command fails, the error returned is
the error of the clone command, and in every other case it returns nil.  No error of
the clone command is swallowed: whenever `Download` runs a command, it returns the error
of that command. -/
theorem C18_download_error (git : Git) (g : gitProject) (w : World) :
    (∀ e, (g.Download git w).1 = some e ↔
      (w.notExist g.folder = true ∧
        (git { args := cloneArgs g, dir := [] } w.fs).1.err = some e)) ∧
    ((g.Download git w).1 = none ↔
      (w.notExist g.folder = false ∨
        (git { args := cloneArgs g, dir := [] } w.fs).1.err = none)) ∧
    ((g.Download git w).2.log ≠ w.log →
      (g.Download git w).2.log = w.log ++ [{ args := cloneArgs g, dir := [] }] ∧
      (g.Download git w).1 = (git { args := cloneArgs g, dir := [] } w.fs).1.err) := by
  cases h : w.notExist g.folder with
  | true =>
    rw [Download_absent git g w h]
    simp
  | false =>
    rw [Download_present git g w h]
    simp

/-- C18, at the project of `caarlos0/not-a-real-repo` in a world without folders: with a
`git` that always fails with `exit status 128` and changes nothing, `Download` returns
that error; with a `git` that always succeeds it returns nil. -/
theorem C18_download_error_witness :
    ∃ g, NewGit "/h".toList "caarlos0/not-a-real-repo".toList = some g ∧
      (g.Download gitAlwaysFails emptyWorld).1 = some "exit status 128".toList ∧
      (g.Download gitAlwaysOk emptyWorld).1 = none := by
  obtain ⟨g, hg, _⟩ := NewGit_isSome "/h".toList "caarlos0/not-a-real-repo".toList
  exact ⟨g, hg,
    ((C18_download_error gitAlwaysFails g emptyWorld).1 _).mpr ⟨rfl, rfl⟩,
    (C18_download_error gitAlwaysOk g emptyWorld).2.1.mpr (Or.inr rfl)⟩

theorem mem_of_occurs (w u : Str) (c : Char) (hc : c ∈ w) (h : w <:+: u) : c ∈ u := by
  obtain ⟨a, b, rfl⟩ := h
  simp [hc]

/-- A string without upper-case letters contains none of the marker words. -/
theorem noMarkerWord_of_no_upper (u : Str) (h : ∀ c ∈ u, c.isUpper = false) :
    NoMarkerWord u := by
  refine ⟨fun hi => ?_, fun hi => ?_, fun hi => ?_⟩
  · have := h 'C' (mem_of_occurs _ _ 'C' (by decide) hi)
    revert this; decide
  · have := h 'S' (mem_of_occurs _ _ 'S' (by decide) hi)
    revert this; decide
  · have := h 'A' (mem_of_occurs _ _ 'A' (by decide) hi)
    revert this; decide

/-- C19: `ToURL` applies the replacements in the order of the table, the same as
`FromURL`, and still, for every string `u` that contains none of the words `COLON`,
`SLASH`, `AT`, in particular for every `u` without upper-case ASCII letters,
`ToURL (FromURL u) = u`. -/
theorem C19_round_trip_same_order (u : Str) :
    (NoMarkerWord u → ToURL (FromURL u) = u) ∧
    ((∀ c ∈ u, c.isUpper = false) → ToURL (FromURL u) = u) ∧
    ToURL (FromURL u) =
      Replace (Replace (Replace (FromURL u) "-COLON-".toList ":".toList)
        "-SLASH-".toList "/".toList) "-AT-".toList "@".toList :=
  ⟨ToURL_FromURL_of_noMarkerWord u,
   fun h => ToURL_FromURL_of_noMarkerWord u (noMarkerWord_of_no_upper u h), rfl⟩

/-- C19, at the URL `https://gitlab.com/caarlos0/test.git` of the tests. -/
theorem C19_round_trip_same_order_witness :
    NoMarkerWord "https://gitlab.com/caarlos0/test.git".toList ∧
    (∀ c ∈ "https://gitlab.com/caarlos0/test.git".toList, c.isUpper = false) ∧
    ToURL (FromURL "https://gitlab.com/caarlos0/test.git".toList) =
      "https://gitlab.com/caarlos0/test.git".toList :=
  ⟨by decide, by decide,
    (C19_round_trip_same_order "https://gitlab.com/caarlos0/test.git".toList).2.1 (by decide)⟩

theorem Split_spaces_append (n : Nat) (b : Str) :
    Split (List.replicate n ' ' ++ b) " ".toList =
      List.replicate n [] ++ Split b " ".toList := by
  induction n with
  | zero => simp
  | succ n ih =>
    have e : List.replicate (n + 1) ' ' ++ b = [] ++ ' ' :: (List.replicate n ' ' ++ b) := by
      simp [List.replicate_succ]
    rw [e, Split_space_append, ih, List.replicate_succ]
    rfl

theorem foldl_scanPart_empty (n : Nat) (acc : Str × Str) :
    (List.replicate n ([] : Str)).foldl scanPart acc = acc := by
  induction n with
  | zero => rfl
  | succ n ih =>
    rw [List.replicate_succ, List.foldl_cons,
      scanPart_other acc [] (by decide) (by decide), ih]

/-- C12, as stated, fails: a tab is not a separator and a leading space makes the repo
reference empty.  The line `a/b branch:x` has URL `https://github.com/a/b` and branch
`x`; with a tab for the space it has URL `https://github.com/a/b<tab>branch:x` and no
branch, and with a leading space it has URL `https://github.com/`. -/
theorem C12_counterexample :
    (NewGit "/h".toList "a/b branch:x".toList).map (fun g => (g.URL, g.Version)) =
      some ("https://github.com/a/b".toList, "x".toList) ∧
    (NewGit "/h".toList "a/b\tbranch:x".toList).map (fun g => (g.URL, g.Version)) =
      some ("https://github.com/a/b\tbranch:x".toList, []) ∧
    (NewGit "/h".toList " a/b branch:x".toList).map (fun g => (g.URL, g.Version)) =
      some ("https://github.com/".toList, "x".toList) := by
  decide

/-- C12, amended: tokens are separated by single spaces and the first token is the repo
reference; for every `cwd` and line, replacing a space of the line by a non-empty run
of spaces, or adding spaces at the end of the line, gives the same project (URL, branch,
folder and inner path). -/
theorem C12_space_runs (cwd a b : Str) (n : Nat) :
    NewGit cwd (a ++ List.replicate (n + 1) ' ' ++ b) = NewGit cwd (a ++ ' ' :: b) ∧
    NewGit cwd (a ++ List.replicate n ' ') = NewGit cwd a := by
  have h1 : Split (a ++ List.replicate (n + 1) ' ' ++ b) " ".toList =
      Split a " ".toList ++ (List.replicate n [] ++ Split b " ".toList) := by
    have e : a ++ List.replicate (n + 1) ' ' ++ b = a ++ ' ' :: (List.replicate n ' ' ++ b) := by
      simp [List.replicate_succ]
    rw [e, Split_space_append, Split_spaces_append]
  have h2 : Split (a ++ List.replicate n ' ') " ".toList =
      Split a " ".toList ++ List.replicate n [] := by
    cases n with
    | zero => simp
    | succ n =>
      have e : a ++ List.replicate (n + 1) ' ' = a ++ ' ' :: (List.replicate n ' ' ++ []) := by
        simp [List.replicate_succ]
      have e0 : Split [] " ".toList = [[]] := by decide
      rw [e, Split_space_append, Split_spaces_append, e0, List.replicate_succ']
  constructor
  · apply NewGit_congr
    · rw [h1, Split_space_append, head?_append_of_ne_nil _ _ (Split_space_ne_nil a),
        head?_append_of_ne_nil _ _ (Split_space_ne_nil a)]
    · rw [h1, Split_space_append, List.foldl_append, List.foldl_append, List.foldl_append,
        foldl_scanPart_empty]
  · apply NewGit_congr
    · rw [h2, head?_append_of_ne_nil _ _ (Split_space_ne_nil a)]
    · rw [h2, List.foldl_append, foldl_scanPart_empty]

/-- C12, at the line `a/b branch:x`: three spaces between the tokens and two spaces at
the end leave the project as it is. -/
theorem C12_space_runs_witness :
    NewGit "/h".toList "a/b   branch:x".toList = NewGit "/h".toList "a/b branch:x".toList ∧
    NewGit "/h".toList "a/b branch:x  ".toList = NewGit "/h".toList "a/b branch:x".toList :=
  ⟨(C12_space_runs "/h".toList "a/b".toList "branch:x".toList 2).1,
   (C12_space_runs "/h".toList "a/b branch:x".toList [] 2).2⟩

/-- Without `..` among them, the elements read are written in order, the empty ones and
`.` left out: what is written grows by plain elements only. -/
theorem foldl_cleanStep_no_dotdot (rooted : Bool) (comps out : List Str)
    (h : ∀ e ∈ comps, e ≠ "..".toList ∧ '/' ∉ e) :
    ∃ ps, (∀ e ∈ ps, Plain e) ∧ comps.foldl (cleanStep rooted) out = out ++ ps := by
  induction comps generalizing out with
  | nil => exact ⟨[], by simp, by simp⟩
  | cons c cs ih =>
    have hcs : ∀ e ∈ cs, e ≠ "..".toList ∧ '/' ∉ e :=
      fun e he => h e (List.mem_cons_of_mem _ he)
    have hc := h c (List.mem_cons_self _ _)
    by_cases h1 : c = [] ∨ c = ".".toList
    · obtain ⟨ps, hps, hf⟩ := ih out hcs
      refine ⟨ps, hps, ?_⟩
      rw [List.foldl_cons, cleanStep, if_pos h1, hf]
    · have hp : Plain c := ⟨fun h' => h1 (Or.inl h'), fun h' => h1 (Or.inr h'), hc.1, hc.2⟩
      obtain ⟨ps, hps, hf⟩ := ih (out ++ [c]) hcs
      refine ⟨c :: ps, ?_, ?_⟩
      · intro e he
        rcases List.mem_cons.mp he with h' | h'
        · rw [h']; exact hp
        · exact hps e h'
      · rw [List.foldl_cons, cleanStep_plain _ _ _ hp, hf]
        simp

/-- Joining a cleaned path with at least one element and any second element: the
elements of the second are processed after those of the first. -/
theorem Join_cleaned (rooted : Bool) (out : List Str) (h : CleanOut rooted out)
    (hne : out ≠ []) (inner : Str) :
    Join [writeOut rooted out, inner] =
      writeOut rooted ((Split inner "/".toList).foldl (cleanStep rooted) out) := by
  obtain ⟨h1, h2, h3⟩ := writeOut_read rooted out h hne
  have e : Join [writeOut rooted out, inner] = Clean (writeOut rooted out ++ '/' :: inner) := by
    cases inner with
    | nil => simp [Join, h1, stringsJoin]
    | cons c cs => simp [Join, h1, stringsJoin]
  rw [e, Clean_append_sep _ _ h1, h2, h3]

/-- C13, as stated, fails: on the line `a/b path:../x` under `/h` the local folder is
`/h/https-COLON--SLASH--SLASH-github.com-SLASH-a-SLASH-b` and `Path()` is `/h/x`, which
is neither the local folder nor a path beneath it. -/
theorem C13_counterexample :
    (NewGit "/h".toList "a/b path:../x".toList).map (fun g => g.folder) =
      some "/h/https-COLON--SLASH--SLASH-github.com-SLASH-a-SLASH-b".toList ∧
    (NewGit "/h".toList "a/b path:../x".toList).map (fun g => g.Path) =
      some "/h/x".toList ∧
    (NewGit "/h".toList "a/b path:../x".toList).map
      (fun g => (decide (g.Path = g.folder), decide ((g.folder ++ ['/']) <+: g.Path))) =
      some (false, false) := by
  decide

/-- C13, amended: for every `cwd` and `line` whose inner path has no `..` component,
`Path()` is the local folder itself or a path beneath it: the local folder followed by
`/` is a prefix of `Path()`. -/
theorem C13_path_beneath_folder (cwd line : Str) :
    ∃ g, NewGit cwd line = some g ∧
      ("..".toList ∉ Split g.inner "/".toList →
        g.Path = g.folder ∨ (g.folder ++ ['/']) <+: g.Path) := by
  refine ⟨_, NewGit_eq cwd line, ?_⟩
  intro hdd
  have hfold : Join [cwd, FromURL (repoURL (firstToken line))] =
      writeOut (isRooted cwd) (cleanElems cwd ++ [FromURL (repoURL (firstToken line))]) :=
    Join_plain _ _ (plain_folderName _)
  have hout : CleanOut (isRooted cwd)
      (cleanElems cwd ++ [FromURL (repoURL (firstToken line))]) :=
    cleanOut_append_plain _ _ _ (cleanOut_cleanElems cwd) (plain_folderName _)
  have hcomps : ∀ e ∈ Split ((Split line " ".toList).foldl scanPart ([], [])).2 "/".toList,
      e ≠ "..".toList ∧ '/' ∉ e := by
    intro e he
    refine ⟨fun h' => hdd (h' ▸ he), ?_⟩
    rw [show "/".toList = ['/'] from rfl, Split_single] at he
    exact splitLoop_no_sep '/' _ e he
  obtain ⟨ps, hps, hf⟩ := foldl_cleanStep_no_dotdot (isRooted cwd) _
    (cleanElems cwd ++ [FromURL (repoURL (firstToken line))]) hcomps
  simp only [gitProject.Path]
  rw [hfold, Join_cleaned _ _ hout (by simp), hf]
  cases ps with
  | nil => left; simp
  | cons p ps =>
    right
    rw [writeOut_append (isRooted cwd)
      (cleanElems cwd ++ [FromURL (repoURL (firstToken line))]) (p :: ps) (by simp) (by simp)]
    exact ⟨stringsJoin "/".toList (p :: ps), by simp⟩

/-- C13, at the line `docker/cli path:contrib/completion/zsh/_docker` of the tests: the
local folder followed by `/` is a prefix of `Path()`. -/
theorem C13_path_beneath_folder_witness :
    ∃ g, NewGit "/h".toList "docker/cli path:contrib/completion/zsh/_docker".toList = some g ∧
      (g.folder ++ ['/']) <+: g.Path := by
  obtain ⟨g, hg, h⟩ :=
    C13_path_beneath_folder "/h".toList "docker/cli path:contrib/completion/zsh/_docker".toList
  refine ⟨g, hg, ?_⟩
  rw [NewGit_eq] at hg
  cases hg
  rcases h (by decide) with h' | h'
  · revert h'; decide
  · exact h'

theorem mem_of_hasPrefix (pre s : Str) (c : Char) (hc : c ∈ pre)
    (h : HasPrefix s pre = true) : c ∈ s := by
  rw [HasPrefix, List.isPrefixOf_iff_prefix] at h
  obtain ⟨t, rfl⟩ := h
  simp [hc]

/-- The URL of a project contains a colon. -/
theorem colon_mem_repoURL (repo : Str) : ':' ∈ repoURL repo := by
  by_cases h : isFullURL repo = true
  · rw [repoURL, if_pos h]
    simp only [isFullURL, Bool.or_eq_true] at h
    rcases h with ((((h | h) | h) | h) | h) | h <;>
      exact mem_of_hasPrefix _ _ ':' (by decide) h
  · rw [repoURL, if_neg h]
    exact List.mem_append_left _ (by decide)

/-- The folder name of a URL with a colon contains the marker `-COLON-`. -/
theorem marker_in_FromURL (u : Str) (h : ':' ∈ u) : "-COLON-".toList <:+: FromURL u := by
  obtain ⟨a, b, rfl⟩ := List.append_of_mem h
  rw [FromURL_eq_escape]
  refine ⟨escape true true true a, escape true true true b, ?_⟩
  simp [escape, escChar]

/-- The folder `Join [cwd, n]` of a plain element `n` is a direct child of the cleaned
`cwd`. -/
theorem Join_plain_child (cwd n : Str) (hn : Plain n) :
    (Clean cwd = "/".toList → Join [cwd, n] = '/' :: n) ∧
    (Clean cwd = ".".toList → Join [cwd, n] = n) ∧
    (Clean cwd ≠ "/".toList → Clean cwd ≠ ".".toList →
      Join [cwd, n] = Clean cwd ++ '/' :: n) := by
  have hj := Join_plain cwd n hn
  have hco := cleanOut_cleanElems cwd
  have hone : ∀ r, writeOut r ([] ++ [n]) = if r = true then '/' :: n else n := by
    intro r
    cases r <;> simp [writeOut, stringsJoin]
  by_cases hst : cleanElems cwd = []
  · -- nothing is left of `cwd`: it cleans to `/` or to `.`
    have hcl : Clean cwd = if isRooted cwd = true then "/".toList else ".".toList := by
      by_cases hc : cwd = []
      · subst hc; rfl
      · rw [Clean, if_neg hc, hst]
        cases isRooted cwd <;> rfl
    rw [hj, hst, hone, hcl]
    cases isRooted cwd
    · refine ⟨fun h => absurd h (by decide), fun _ => by simp, fun _ h => absurd rfl h⟩
    · refine ⟨fun _ => by simp, fun h => absurd h (by decide), fun h _ => absurd rfl h⟩
  · have hc : cwd ≠ [] := by
      intro hc
      apply hst
      rw [hc]; rfl
    have hcl : Clean cwd = writeOut (isRooted cwd) (cleanElems cwd) := by
      rw [Clean, if_neg hc]
    have happ : Join [cwd, n] = Clean cwd ++ '/' :: n := by
      rw [hj, hcl, writeOut_append _ _ _ hst (by simp)]
      simp [stringsJoin]
    have hread := writeOut_read _ _ hco hst
    refine ⟨fun h => ?_, fun h => ?_, fun _ _ => happ⟩
    · exfalso
      rw [hcl] at h
      have h3 := hread.2.2
      rw [h] at h3
      exact hst (h3 ▸ (by decide : cleanElems "/".toList = []))
    · exfalso
      rw [hcl] at h
      have h3 := hread.2.2
      rw [h] at h3
      exact hst (h3 ▸ (by decide : cleanElems ".".toList = []))

/-- C20: for every `cwd` and `line`, the folder name `n = FromURL(URL)` that `NewGit`
computes is non-empty, contains no `/`, is neither `.` nor `..` and contains `-COLON-`;
so the local folder `filepath.Join(cwd, n)` is a direct child of the cleaned `cwd`: it
is the cleaned `cwd` followed by `/` and `n`, `/` followed by `n` when the cleaned `cwd`
is the root, and `n` when the cleaned `cwd` is `.`. -/
theorem C20_folder_is_child (cwd line : Str) :
    ∃ g, NewGit cwd line = some g ∧
      FromURL g.URL ≠ [] ∧ '/' ∉ FromURL g.URL ∧
      FromURL g.URL ≠ ".".toList ∧ FromURL g.URL ≠ "..".toList ∧
      "-COLON-".toList <:+: FromURL g.URL ∧
      g.folder = Join [cwd, FromURL g.URL] ∧
      (Clean cwd = "/".toList → g.folder = '/' :: FromURL g.URL) ∧
      (Clean cwd = ".".toList → g.folder = FromURL g.URL) ∧
      (Clean cwd ≠ "/".toList → Clean cwd ≠ ".".toList →
        g.folder = Clean cwd ++ '/' :: FromURL g.URL) := by
  have hp := plain_folderName (firstToken line)
  have hc := Join_plain_child cwd _ hp
  exact ⟨_, NewGit_eq cwd line, hp.1, hp.2.2.2, hp.2.1, hp.2.2.1,
    marker_in_FromURL _ (colon_mem_repoURL _), rfl, hc.1, hc.2.1, hc.2.2⟩

/-- C20, at the line `../../etc/passwd` under `/home/user/.cache/antibody`: the folder
is still a direct child of the parent directory. -/
theorem C20_folder_is_child_witness :
    ∃ g, NewGit "/home/user/.cache/antibody".toList "../../etc/passwd".toList = some g ∧
      g.folder = "/home/user/.cache/antibody".toList ++ '/' :: FromURL g.URL ∧
      '/' ∉ FromURL g.URL := by
  obtain ⟨g, hg, _, h2, _, _, _, _, _, _, h9⟩ :=
    C20_folder_is_child "/home/user/.cache/antibody".toList "../../etc/passwd".toList
  exact ⟨g, hg, h9 (by decide) (by decide), h2⟩

end Antibody
